import Mathlib

set_option autoImplicit false

namespace GoAgentBench

/-!
Verification development for the goagentbench repository.

This file shallowly embeds the two core components of the repository:

* the transactional copy engine `internal/fsutil` (`CopyToDir`, `copyTxn`,
  `trackedMkdirAll`, `undoChanges`, `restoreFile`, `createBackup`), and
* the verification pipeline `internal/verify/verify.go`
  (`checkModificationRules`, `pathMatchesRule`, `looksLikeDirRule`,
  `filterIgnoredChanges`, `parseJSONCounts`, `runPartial`, `allPassed`,
  and the gating control flow of `Run`).

Modelling conventions:

* A filesystem path is a list of path components (`Path`).  A filesystem is
  a finite association list from paths to entries; an entry is a regular
  file carrying its byte content (modelled as a `String`) and permission
  bits, or a directory carrying permission bits.  The root directory (the
  empty path) always exists.
* Process-level effects (running `git`, running `go test`) and `os.Stat`
  calls outside the modelled filesystem are supplied as oracle functions.
* I/O failures ("any I/O failure mid-copy") are modelled by a failure
  oracle `Nat → Bool` consulted at each fallible filesystem primitive,
  indexed by an operation counter.
-/

abbrev Path := List String

inductive Entry where
  | file (content : String) (mode : Nat)
  | dir (mode : Nat)
deriving DecidableEq

abbrev FS := List (Path × Entry)

/-- Look up the entry stored at a path (first matching key). -/
def look : FS → Path → Option Entry
  | [], _ => none
  | (q, e) :: rest, p => if q = p then some e else look rest p

/-- Delete every binding for a path. -/
def fdel (fs : FS) (p : Path) : FS := fs.filter (fun b => !(b.1 == p))

/-- Bind a path to an entry, replacing any previous binding. -/
def fset (fs : FS) (p : Path) (e : Entry) : FS := (p, e) :: fdel fs p

/-- Component-wise prefix test on paths (boolean). -/
def isPre : Path → Path → Bool
  | [], _ => true
  | _ :: _, [] => false
  | a :: as, b :: bs => a == b && isPre as bs

/-- Whether some entry lies strictly below directory path `d`. -/
def hasUnder (fs : FS) (d : Path) : Bool :=
  fs.any (fun b => isPre d b.1 && d ≠ b.1)

/-- Model of `os.Remove`: deletes a file, deletes an empty directory, and
leaves a non-empty directory (or a missing path) in place; the engine
ignores the returned error in all call sites modelled here. -/
def fremove (fs : FS) (p : Path) : FS :=
  match look fs p with
  | some (.file _ _) => fdel fs p
  | some (.dir _) => if hasUnder fs p then fs else fdel fs p
  | none => fs

/-- Model of `os.Stat` on the modelled filesystem: the root (empty path)
always exists as a directory. -/
def statP (fs : FS) : Path → Option Entry
  | [] => some (.dir 0o755)
  | p => look fs p

/-- Extensional equality of filesystems. -/
def eqv (fs gs : FS) : Prop := ∀ p, look fs p = look gs p

/-!
Embedding of `internal/fsutil`, file `copy.go` (`CopyToDir` and helpers).

A source directory is represented by its `filepath.Walk` enumeration: the
list of (relative path, entry) pairs the walk visits, in walk order, with
the root entry (relative path `.`) omitted, mirroring the `rel == "."`
early return in `copyTxn.copyDirContents`.  Transient staging temp files
(`.fsutil-copy-*`, `.fsutil-undo-*`) are abstracted away because they are
removed before every observable point of each operation; backup files
(`.fsutil-backup-*`) persist past a successful copy and are modelled as
real filesystem entries, with `os.CreateTemp` name generation modelled by
a counter plus a collision check (a collision is reported as an I/O
failure, standing for `CreateTemp` giving up).  Each fallible I/O
primitive consults the failure oracle `env` at a fresh operation index.
-/

inductive CErr where
  | srcMissing
  | notADir (p : Path)
  | isADir (p : Path)
  | alreadyExists (p : Path)
  | ioFail
deriving DecidableEq

instance {ε α : Type} [DecidableEq ε] [DecidableEq α] : DecidableEq (Except ε α) := by
  intro a b
  cases a with
  | ok x =>
    cases b with
    | ok y =>
      by_cases h : x = y
      · exact .isTrue (by rw [h])
      · exact .isFalse (by simpa using h)
    | error y => exact .isFalse (by simp)
  | error x =>
    cases b with
    | ok y => exact .isFalse (by simp)
    | error y =>
      by_cases h : x = y
      · exact .isTrue (by rw [h])
      · exact .isFalse (by simpa using h)

/-- One record of `copyTxn.overwritten`: the overwritten path, the backup
file holding the original bytes, and the original permission bits. -/
structure OW where
  path : Path
  backup : Path
  mode : Nat
deriving DecidableEq

/-- The mutable state of `copyTxn` (minus the `overwrite` flag, passed
separately). -/
structure Txn where
  createdDirs : List Path := []
  createdFiles : List Path := []
  overwritten : List OW := []
deriving DecidableEq

/-- Machine state threaded through the engine: the filesystem, the
temp-name counter, and the I/O operation counter. -/
structure St where
  fs : FS
  tmp : Nat
  tick : Nat
deriving DecidableEq

/-- Model of the random component of an `os.CreateTemp` backup name. -/
def backupName (n : Nat) : String := String.mk ('.' :: 'b' :: 'k' :: List.replicate n 'x')

section CopyEngine

variable (env : Nat → Bool)

/-- Consult the I/O failure oracle at the next operation index. -/
def ioStep (st : St) : St × Bool := ({ st with tick := st.tick + 1 }, env st.tick)

/-- The chain of nonempty prefixes of `p`, deepest first, as visited by the
upward scan loop of `trackedMkdirAll`. -/
def chain (p : Path) : List Path := (List.range p.length).map (fun i => p.take (p.length - i))

/-- The upward scan loop of `trackedMkdirAll`: collect prefixes that do not
exist, stop at the first existing directory, fail on an existing
non-directory. -/
def collectScan (fs : FS) : List Path → Except CErr (List Path)
  | [] => .ok []
  | q :: rest =>
    match statP fs q with
    | none =>
      match collectScan fs rest with
      | .ok ms => .ok (q :: ms)
      | .error e => .error e
    | some (.dir _) => .ok []
    | some (.file _ _) => .error (.notADir q)

def collectMissing (fs : FS) (p : Path) : Except CErr (List Path) := collectScan fs (chain p)

/-- The creation loop of `trackedMkdirAll` over the missing prefixes in
shallowest-first order; on a failed `os.Mkdir` it removes the directories
it created (in reverse order, via the recursive unwinding) and errors. -/
def mkDirs (mode : Nat) : List Path → St → St × Except CErr (List Path)
  | [], st => (st, .ok [])
  | d :: rest, st =>
    match statP st.fs d with
    | some _ => mkDirs mode rest st
    | none =>
      let r := ioStep env st
      if r.2 then (r.1, .error .ioFail)
      else
        let st2 : St := { r.1 with fs := fset r.1.fs d (.dir mode) }
        match mkDirs mode rest st2 with
        | (st3, .ok created) => (st3, .ok (d :: created))
        | (st3, .error e) => ({ st3 with fs := fremove st3.fs d }, .error e)

def trackedMkdirAll (p : Path) (mode : Nat) (st : St) : St × Except CErr (List Path) :=
  match collectMissing st.fs p with
  | .error e => (st, .error e)
  | .ok missing => mkDirs env mode missing.reverse st

/-- `copyTxn.ensureDir`: create missing directories and record them. -/
def ensureDir (p : Path) (mode : Nat) (st : St) (txn : Txn) : (St × Txn) × Option CErr :=
  match trackedMkdirAll env p mode st with
  | (st', .ok created) => ((st', { txn with createdDirs := txn.createdDirs ++ created }), none)
  | (st', .error e) => ((st', txn), some e)

/-- `copyTxn.copyFile`: stage the source bytes to a temp file, back up and
record an existing destination (or record a fresh one), then atomically
rename into place.  The transaction record is appended before the final
rename, exactly as in the source. -/
def copyFile (overwrite : Bool) (dst : Path) (content : String) (mode : Nat)
    (st : St) (txn : Txn) : (St × Txn) × Option CErr :=
  match ensureDir env (dst.dropLast) 0o755 st txn with
  | (r, some e) => (r, some e)
  | ((st1, txn1), none) =>
    match statP st1.fs dst with
    | some (.dir _) => ((st1, txn1), some (.isADir dst))
    | some (.file c0 m0) =>
      if !overwrite then ((st1, txn1), some (.alreadyExists dst))
      else
        let r1 := ioStep env st1
        if r1.2 then ((r1.1, txn1), some .ioFail)
        else
          let r2 := ioStep env r1.1
          if r2.2 then ((r2.1, txn1), some .ioFail)
          else
            let st2 := r2.1
            let bpath := dst.dropLast ++ [backupName st2.tmp]
            let st3 : St := { st2 with tmp := st2.tmp + 1 }
            if (statP st3.fs bpath).isSome then ((st3, txn1), some .ioFail)
            else
              let st4 : St := { st3 with fs := fset st3.fs bpath (.file c0 0o600) }
              let txn2 : Txn :=
                { txn1 with overwritten := txn1.overwritten ++ [⟨dst, bpath, m0⟩] }
              let r3 := ioStep env st4
              if r3.2 then ((r3.1, txn2), some .ioFail)
              else (({ r3.1 with fs := fset r3.1.fs dst (.file content mode) }, txn2), none)
    | none =>
      let r1 := ioStep env st1
      if r1.2 then ((r1.1, txn1), some .ioFail)
      else
        let txn2 : Txn := { txn1 with createdFiles := txn1.createdFiles ++ [dst] }
        let r2 := ioStep env r1.1
        if r2.2 then ((r2.1, txn2), some .ioFail)
        else (({ r2.1 with fs := fset r2.1.fs dst (.file content mode) }, txn2), none)

/-- One entry visited by `filepath.Walk` inside the source directory. -/
inductive Item where
  | fileI (content : String) (mode : Nat)
  | dirI (mode : Nat)
deriving DecidableEq

/-- The body of the `filepath.Walk` callback in `copyTxn.copyDirContents`. -/
def copyItem (overwrite : Bool) (dstDir : Path) (rel : Path) (it : Item)
    (st : St) (txn : Txn) : (St × Txn) × Option CErr :=
  match it with
  | .dirI m => ensureDir env (dstDir ++ rel) m st txn
  | .fileI c m => copyFile env overwrite (dstDir ++ rel) c m st txn

/-- `copyTxn.copyDirContents`: fold the walk callback over the walk
enumeration, stopping at the first error. -/
def copyDirContents (overwrite : Bool) (dstDir : Path) :
    List (Path × Item) → St → Txn → (St × Txn) × Option CErr
  | [], st, txn => ((st, txn), none)
  | (rel, it) :: rest, st, txn =>
    match copyItem env overwrite dstDir rel it st txn with
    | (r, some e) => (r, some e)
    | ((st', txn'), none) => copyDirContents overwrite dstDir rest st' txn'

/-- A source argument to `CopyToDir`: a regular file (with its basename) or
a directory given by its walk enumeration; `none` models a failing
`os.Stat(src)`. -/
inductive Src where
  | fileS (base : String) (content : String) (mode : Nat)
  | dirS (walk : List (Path × Item))
deriving DecidableEq

/-- `restoreFile`: copy the backup bytes to a temp file, set the recorded
original mode, and rename over the overwritten path; silently do nothing
when the backup cannot be read.  Cleanup primitives are modelled as
non-failing (the source swallows their errors as best-effort cleanup). -/
def restoreFile (o : OW) (fs : FS) : FS :=
  match statP fs o.backup with
  | some (.file c _) => fset fs o.path (.file c o.mode)
  | _ => fs

/-- The `overwritten` loop of `undoChanges`: newest record first, restore
then delete the backup. -/
def undoOW (ow : List OW) (fs : FS) : FS :=
  ow.reverse.foldl (fun acc o => fremove (restoreFile o acc) o.backup) fs

/-- The `createdFiles` / `createdDirs` loops of `undoChanges`: newest path
first, `os.Remove` each. -/
def undoPaths (ps : List Path) (fs : FS) : FS :=
  ps.reverse.foldl (fun acc p => fremove acc p) fs

/-- `undoChanges(createdFiles, createdDirs, overwritten)`. -/
def undoChanges (createdFiles createdDirs : List Path) (ow : List OW) (fs : FS) : FS :=
  undoPaths createdDirs (undoPaths createdFiles (undoOW ow fs))

/-- `undoChanges` applied to a transaction's records, as `rollback` and the
committed closure do. -/
def undoTxn (t : Txn) (fs : FS) : FS :=
  undoChanges t.createdFiles t.createdDirs t.overwritten fs

/-- The closure returned by `copyTxn.commit`: captured records plus a
`sync.Once` guard. -/
structure Undoer where
  txn : Txn
  used : Bool

/-- Invoking the reversal closure: the `once.Do` body runs on the first
invocation only. -/
def Undoer.invoke (u : Undoer) (fs : FS) : Undoer × FS :=
  if u.used then (u, fs)
  else ({ u with used := true }, undoTxn u.txn fs)

/-- `CopyToDir(src, dstDir, overwrite)`.  Returns the final machine state
and either the committed transaction (wrapped by the caller into an
`Undoer`) or the error, after rolling back on every error path. -/
def copyToDir (overwrite : Bool) (src : Option Src) (dstDir : Path) (st : St) :
    St × Except CErr Txn :=
  match src with
  | none => (st, .error .srcMissing)
  | some s =>
    match trackedMkdirAll env dstDir 0o755 st with
    | (st1, .error e) => (st1, .error e)
    | (st1, .ok created) =>
      let txn1 : Txn := { createdDirs := created }
      match statP st1.fs dstDir with
      | some (.dir _) =>
        let res := match s with
          | .dirS walk => copyDirContents env overwrite dstDir walk st1 txn1
          | .fileS base c m => copyFile env overwrite (dstDir ++ [base]) c m st1 txn1
        match res with
        | ((st2, txn2), some e) => ({ st2 with fs := undoTxn txn2 st2.fs }, .error e)
        | ((st2, txn2), none) => (st2, .ok txn2)
      | _ => ({ st1 with fs := undoTxn txn1 st1.fs }, .error (.notADir dstDir))

end CopyEngine

/-!
Rollback correctness development.  The central invariant `Inv fs0 fs txn`
states that undoing the transaction records `txn` from the current
filesystem `fs` restores the pre-call filesystem `fs0`, together with
bookkeeping facts about the recorded paths that keep the invariant
provable step by step.
-/

/-- The path holds a regular file. -/
def isFileAt (fs : FS) (p : Path) : Prop := ∃ c m, look fs p = some (.file c m)

/-- The path holds a directory. -/
def isDirAt (fs : FS) (p : Path) : Prop := ∃ m, look fs p = some (.dir m)

/-- The path holds no directory (it is absent or a regular file). -/
def noDirAt (fs : FS) (p : Path) : Prop := ∀ m, look fs p ≠ some (.dir m)

/-- Well-formed filesystem: every ancestor of an existing entry is a
directory. -/
def WF (fs : FS) : Prop :=
  ∀ p q, (look fs p).isSome → q ≠ [] → q <+: p → q ≠ p → isDirAt fs q

/-- Two filesystems that agree everywhere except possibly at `p`. -/
def agreeExcept (p : Path) (fs gs : FS) : Prop := ∀ q, q ≠ p → look fs q = look gs q

/-- The rollback invariant: undoing the transaction records restores the
pre-call filesystem, the current filesystem is well formed, and every
recorded path denotes the kind of object the record was made for. -/
structure Inv (fs0 fs : FS) (txn : Txn) : Prop where
  undo_eq : eqv (undoTxn txn fs) fs0
  wf : WF fs
  files_exist : ∀ p ∈ txn.createdFiles, isFileAt fs p
  dirs_exist : ∀ p ∈ txn.createdDirs, isDirAt fs p
  ow_exist : ∀ o ∈ txn.overwritten, isFileAt fs o.path
  baks_exist : ∀ o ∈ txn.overwritten, isFileAt fs o.backup
  baks_ne : ∀ o ∈ txn.overwritten, o.backup ≠ []

/-!
Characterisation of the `trackedMkdirAll` scan and creation loops.
`Chain mode fs ds` describes a shallowest-first list of directories each of
which is missing and has an existing (or just-created) parent — exactly
the lists the creation loop receives.
-/

inductive Chain (mode : Nat) : FS → List Path → Prop where
  | nil : ∀ fs, Chain mode fs []
  | cons : ∀ fs d rest, d ≠ [] → look fs d = none →
      (d.dropLast = [] ∨ isDirAt fs d.dropLast) →
      Chain mode (fset fs d (.dir mode)) rest → Chain mode fs (d :: rest)

def foldSets (mode : Nat) (fs : FS) (l : List Path) : FS :=
  l.foldl (fun g q => fset g q (.dir mode)) fs

/-- Boolean sufficient check for `WF`, used to establish well-formedness of
concrete example filesystems by evaluation. -/
def isDirB (fs : FS) (q : Path) : Bool :=
  match look fs q with
  | some (.dir _) => true
  | _ => false

def WFB (fs : FS) : Bool :=
  fs.all (fun b => (chain b.1.dropLast).all (fun q => isDirB fs q))

/-- Iterated invocation of a reversal closure. -/
def invokeN : Nat → Undoer × FS → Undoer × FS
  | 0, p => p
  | n + 1, p => invokeN n (Undoer.invoke p.1 p.2)

/-- Example inputs used by the witnesses: a workspace directory holding one
file, and a source directory walk with a subdirectory, a file, and a file
overwriting the existing one. -/
def exEnv : Nat → Bool := fun _ => false

def exFS : FS := [(["w"], .dir 0o755), (["w", "old.txt"], .file "O" 0o644)]

def exSt : St := ⟨exFS, 0, 0⟩

def exWalk : List (Path × Item) :=
  [(["d"], .dirI 0o700), (["d", "a.txt"], .fileI "A" 0o600),
   (["old.txt"], .fileI "N" 0o600)]

def exTxn : Txn :=
  ⟨[["w", "d"]], [["w", "d", "a.txt"]],
   [⟨["w", "old.txt"], ["w", String.mk ['.', 'b', 'k']], 0o644⟩]⟩

/-!
Forward correctness of directory copies: what a successful `CopyToDir`
with a directory source leaves at each destination path.  `walkFromB`
captures the contract of `filepath.Walk`: every visited relative path is
nonempty and all of its proper prefixes have been visited earlier as
directories.
-/

def walkFromB (seenDirs : List Path) : List (Path × Item) → Bool
  | [] => true
  | (rel, it) :: rest =>
    (!rel.isEmpty) && (chain rel.dropLast).all (fun q => decide (q ∈ seenDirs)) &&
    (match it with
     | .dirI _ => walkFromB (seenDirs ++ [rel]) rest
     | .fileI _ _ => walkFromB seenDirs rest)

/-- A directory walk enumeration as produced by `filepath.Walk`: parents
before children, and no relative path visited twice. -/
def WalkOK (walk : List (Path × Item)) : Prop :=
  walkFromB [] walk = true ∧ (walk.map Prod.fst).Nodup

/-- What a successful copy guarantees at one destination path: file
entries hold the source bytes and mode; directory entries exist, and
carry the source directory's permission bits whenever the path did not
exist before the walk started (`fs1` is the filesystem after the
destination root was ensured). -/
def MPost (fs1 fs : FS) (t : Path) : Item → Prop
  | .fileI c m => look fs t = some (.file c m)
  | .dirI m => ∃ m', look fs t = some (.dir m') ∧ (look fs1 t = none → m' = m)

/-!
Embedding of `internal/verify/verify.go`: the path rule matcher
(`pathMatchesRule`, `looksLikeDirRule`), the modification auditor
(`filterIgnoredChanges`, `checkModificationRules`), test execution and
scoring (`runGoTest`, `runPartial`, `parseJSONCounts`, `allPassed`), and
the gating control flow of `Run`.

Strings are manipulated through their character lists.  The Go standard
library functions used by the source are modelled byte-for-byte for the
ASCII inputs the claims concern: `filepath.Clean` and `filepath.Dir`
(`cleanPath`, `dirPath`), `strings.TrimSpace` (`trimSpace`, with the ASCII
white-space set), `strings.ContainsAny(rule, "*?[")`
(`containsGlobMeta`), `strings.HasSuffix(rule, separator)`
(`hasTrailingSep`), `strings.Join` (`goJoin`), `strings.Contains`
(`containsSub`), `sort.Strings` (`sortStrings`, an insertion sort — any
correct sort produces the same list), and `filepath.Match` (`globMatch`,
defined with explicit fuel; `none` models `ErrBadPattern`).  `os.Stat`
inside `looksLikeDirRule` is an oracle `isDir` applied to the cleaned
rule, standing for `os.Stat(filepath.Join(workspaceDir, filepath.Clean(rule)))`.
-/

def splitOnSlash : List Char → List (List Char)
  | [] => [[]]
  | c :: rest =>
    match splitOnSlash rest with
    | [] => [[]]
    | h :: t => if c = '/' then [] :: h :: t else (c :: h) :: t

/-- The element-processing loop of `filepath.Clean` (unix rules): drop
empty and `.` elements, resolve `..` against the stack. -/
def cleanStack (rooted : Bool) : List (List Char) → List (List Char) → List (List Char)
  | acc, [] => acc.reverse
  | acc, c :: cs =>
    if c = [] ∨ c = ['.'] then cleanStack rooted acc cs
    else if c = ['.', '.'] then
      match acc with
      | [] =>
        if rooted then cleanStack rooted [] cs
        else cleanStack rooted [['.', '.']] cs
      | top :: rest =>
        if top = ['.', '.'] then cleanStack rooted (c :: top :: rest) cs
        else cleanStack rooted rest cs
    else cleanStack rooted (c :: acc) cs

def joinSlash : List (List Char) → List Char
  | [] => []
  | [c] => c
  | c :: rest => c ++ '/' :: joinSlash rest

/-- `filepath.Clean` on unix. -/
def cleanPath (s : String) : String :=
  if s = "" then "."
  else
    let cs := s.data
    let rooted := cs.head? = some '/'
    let comps := cleanStack rooted [] (splitOnSlash cs)
    if comps = [] then (if rooted then "/" else ".")
    else String.mk ((if rooted then ['/'] else []) ++ joinSlash comps)

/-- `filepath.Dir` on unix: everything up to and including the final
separator, cleaned. -/
def dirPath (s : String) : String :=
  cleanPath (String.mk (s.data.reverse.dropWhile (fun c => c ≠ '/')).reverse)

def isSpaceChar (c : Char) : Bool :=
  c == ' ' || c == '\t' || c == '\n' || c == '\x0b' || c == '\x0c' || c == '\r'

/-- `strings.TrimSpace` restricted to the ASCII white-space set. -/
def trimSpace (s : String) : String :=
  String.mk ((s.data.dropWhile isSpaceChar).reverse.dropWhile isSpaceChar).reverse

/-- `strings.ContainsAny(rule, "*?[")`. -/
def containsGlobMeta (s : String) : Bool :=
  s.data.any (fun c => c == '*' || c == '?' || c == '[')

/-- `strings.HasSuffix(rule, string(filepath.Separator))`. -/
def hasTrailingSep (s : String) : Bool := s.data.getLast? == some '/'

/-- `strings.Join`. -/
def goJoin (sep : String) : List String → String
  | [] => ""
  | [x] => x
  | x :: xs => x ++ sep ++ goJoin sep xs

/-- `strings.Contains`. -/
def containsSub (hay needle : String) : Bool := decide (needle.data <:+: hay.data)

/-- Parse a `[...]` character class: optional leading `^`, then ranges
until `]`; `none` models `ErrBadPattern`. -/
def parseClassRanges : Nat → List Char → Bool → Option (List (Char × Char) × List Char)
  | 0, _, _ => none
  | _ + 1, [], _ => none
  | _ + 1, ']' :: rest, first => if first then none else some ([], rest)
  | fuel + 1, '\\' :: lo :: rest, _ =>
    parseRangeTail fuel lo rest
  | fuel + 1, lo :: rest, _ =>
    if lo = '\\' then none else parseRangeTail fuel lo rest
where
  parseRangeTail : Nat → Char → List Char → Option (List (Char × Char) × List Char)
  | 0, _, _ => none
  | fuel + 1, lo, '-' :: '\\' :: hi :: rest =>
    match parseClassRanges fuel rest false with
    | some (rs, rest') => some ((lo, hi) :: rs, rest')
    | none => none
  | fuel + 1, lo, '-' :: hi :: rest =>
    if hi = ']' ∨ hi = '\\' then none
    else
      match parseClassRanges fuel rest false with
      | some (rs, rest') => some ((lo, hi) :: rs, rest')
      | none => none
  | fuel + 1, lo, rest =>
    match parseClassRanges fuel rest false with
    | some (rs, rest') => some ((lo, lo) :: rs, rest')
    | none => none

/-- `filepath.Match` on unix, with explicit fuel (always sufficient when
called through `globMatch`): `*` and `?` never match the separator, `[...]`
matches a character class, `\\` escapes; `none` models `ErrBadPattern`. -/
def globMatchFuel : Nat → List Char → List Char → Option Bool
  | 0, _, _ => none
  | _ + 1, [], [] => some true
  | _ + 1, [], _ :: _ => some false
  | fuel + 1, '*' :: ps, s =>
    (match globMatchFuel fuel ps s with
     | none => none
     | some true => some true
     | some false =>
       match s with
       | [] => some false
       | c :: s' => if c = '/' then some false else globMatchFuel fuel ('*' :: ps) s')
  | fuel + 1, '?' :: ps, c :: s' =>
    if c = '/' then some false else globMatchFuel fuel ps s'
  | _ + 1, '?' :: _, [] => some false
  | fuel + 1, '\\' :: c :: ps, d :: s' =>
    if c = d then globMatchFuel fuel ps s' else some false
  | _ + 1, '\\' :: _ :: _, [] => some false
  | _ + 1, ['\\'], _ => none
  | fuel + 1, '[' :: ps, d :: s' =>
    (match ps with
     | '^' :: ps' =>
       match parseClassRanges (fuel + 1) ps' true with
       | none => none
       | some (rs, rest) =>
         if d ≠ '/' ∧ ¬ rs.any (fun r => r.1 ≤ d ∧ d ≤ r.2) then
           globMatchFuel fuel rest s'
         else some false
     | _ =>
       match parseClassRanges (fuel + 1) ps true with
       | none => none
       | some (rs, rest) =>
         if rs.any (fun r => r.1 ≤ d ∧ d ≤ r.2) then globMatchFuel fuel rest s'
         else some false)
  | _ + 1, '[' :: ps, [] =>
    (match parseClassRanges 0 ps true with
     | _ => some false)
  | fuel + 1, c :: ps, d :: s' =>
    if c = d then globMatchFuel fuel ps s' else some false
  | _ + 1, _ :: _, [] => some false

def globMatch (p s : List Char) : Option Bool :=
  globMatchFuel (2 * (p.length + s.length) + 2) p s

/-- `looksLikeDirRule(rule, workspaceDir)`: a trailing separator, or the
cleaned rule naming an existing directory in the workspace (stat oracle). -/
def looksLikeDirRule (isDir : String → Bool) (rule : String) : Bool :=
  hasTrailingSep rule || isDir (cleanPath rule)

/-- `pathMatchesRule(path, rule, workspaceDir)`. -/
def pathMatchesRule (isDir : String → Bool) (path rule : String) : Bool :=
  if trimSpace rule = "" then false
  else
    let cleanP := cleanPath path
    if containsGlobMeta rule then
      match globMatch rule.data cleanP.data with
      | some b => b
      | none => false
    else
      let cleanR := cleanPath rule
      if cleanP = cleanR then true
      else if looksLikeDirRule isDir rule then decide (dirPath cleanP = cleanR)
      else false

def anyChangeMatchesRule (isDir : String → Bool) (changes : List String)
    (rule : String) : Bool :=
  changes.any (fun p => pathMatchesRule isDir p rule)

def matchesPathRule (isDir : String → Bool) (path : String)
    (rules : List String) : Bool :=
  rules.any (fun rule => pathMatchesRule isDir path rule)

def verifyIgnoredFiles : List String := [".run-start.json", ".run-progress.json"]

/-- `filterIgnoredChanges`: clean each path and drop the bookkeeping
filenames. -/
def filterIgnoredChanges (paths : List String) : List String :=
  paths.filterMap (fun p =>
    let c := cleanPath p
    if verifyIgnoredFiles.contains c then none else some c)

/-- Byte-wise (code-point-wise) string comparison, as `sort.Strings`
compares ASCII strings. -/
def charsLe : List Char → List Char → Bool
  | [], _ => true
  | _ :: _, [] => false
  | a :: as, b :: bs =>
    if a.toNat < b.toNat then true
    else if b.toNat < a.toNat then false
    else charsLe as bs

def strLeb (a b : String) : Bool := charsLe a.data b.data

def insertSorted (x : String) : List String → List String
  | [] => [x]
  | y :: ys => if strLeb x y then x :: y :: ys else y :: insertSorted x ys

/-- `sort.Strings` (insertion sort; for strings any correct sort yields
the same list). -/
def sortStrings : List String → List String
  | [] => []
  | x :: xs => insertSorted x (sortStrings xs)

def blockedMsg (p : String) : String := p ++ " is blocked by verify.no-modify"

def notModifiedMsg (r : String) : String := r ++ " in verify.must-modify was not modified"

def noChangesMsg : String :=
  "workspace has no changes but verify.must-modify requires modifications"

/-- `checkModificationRules`, with the workspace-change listing and the
directory-stat oracle supplied as inputs. -/
def checkModificationRules (isDir : String → Bool) (mustModify noModify : List String)
    (changesRaw : List String) : List String :=
  let changes := filterIgnoredChanges changesRaw
  if changes = [] then
    (if mustModify = [] then [] else [noChangesMsg])
  else
    let blocked := (changes.filter (fun p => matchesPathRule isDir p noModify)).map blockedMsg
    let notModified :=
      if mustModify = [] then []
      else (mustModify.filter
        (fun rule => !anyChangeMatchesRule isDir changes rule)).map notModifiedMsg
    let problems := blocked ++ notModified
    if problems = [] then [] else sortStrings problems

/-- Model of one `go test -json` output line after `json.Unmarshal`: either
not valid JSON (skipped), or an event with its `Action` and `Test` fields
(absent fields decode to the empty string). -/
inductive JLine where
  | invalid
  | event (action : String) (test : String)
deriving DecidableEq

/-- One step of the `parseJSONCounts` scan loop. -/
def jCount (acc : Nat × Nat) (l : JLine) : Nat × Nat :=
  match l with
  | .invalid => acc
  | .event a t =>
    if t = "" then acc
    else if a = "pass" then (acc.1 + 1, acc.2 + 1)
    else if a = "fail" then (acc.1, acc.2 + 1)
    else acc

/-- `parseJSONCounts`: count `pass`/`fail` events with a nonempty test
name; everything else is ignored. -/
def parseJSONCounts (lines : List JLine) : Nat × Nat :=
  lines.foldl jCount (0, 0)

structure TestResult where
  name : String
  passed : Bool
  output : String
  error : String
deriving DecidableEq

/-- The scenario verification configuration consumed by `Run`. -/
structure VerifyCfg where
  mustModify : List String
  noModify : List String
  tests : List String
  partialTests : List String

/-- External effects consumed by `Run`, supplied as oracles: the
directory-stat answers for rules, the audited workspace changes, and the
outcome of each `go test` invocation (exit status, captured output, error
text, and the parsed `-json` event lines). -/
structure VerifyEnv where
  isDir : String → Bool
  changes : List String
  runTest : String → Bool
  testOutput : String → String
  testErr : String → String
  partialLines : String → List JLine

/-- `runGoTest`: the per-target result; `Passed` is the process exit
status, the error text is filled only on failure. -/
def runGoTest (env : VerifyEnv) (entry : String) : TestResult :=
  { name := entry, passed := env.runTest entry, output := env.testOutput entry,
    error := if env.runTest entry then "" else env.testErr entry }

def runTestList (env : VerifyEnv) (entries : List String) : List TestResult :=
  entries.map (runGoTest env)

def partialPassedCount (env : VerifyEnv) (entries : List String) : Nat :=
  (entries.map (fun e => (parseJSONCounts (env.partialLines e)).1)).sum

def partialTotalCount (env : VerifyEnv) (entries : List String) : Nat :=
  (entries.map (fun e => (parseJSONCounts (env.partialLines e)).2)).sum

/-- `runPartial`: run every partial target in JSON mode, sum the event
counts over all targets, and compute the score (0 when no events). -/
def runPartial (env : VerifyEnv) (entries : List String) : List TestResult × Option ℚ :=
  if entries = [] then ([], none)
  else
    let results := entries.map (runGoTest env)
    let totalPassed := partialPassedCount env entries
    let totalTests := partialTotalCount env entries
    let score : ℚ :=
      if 0 < totalTests then (totalPassed : ℚ) / (totalTests : ℚ) else 0
    (results, some score)

def allPassed (results : List TestResult) : Bool := results.all (fun r => r.passed)

structure Report where
  success : Bool
  partialScore : Option ℚ
  tests : List TestResult
  partialTests : List TestResult

structure VerifyOutcome where
  report : Report
  copiesApplied : Bool
  testsRun : Bool

/-- The gating control flow of `Run` after the workspace checks: evaluate
the modification rules; on any violation, emit the synthetic failing test
and stop — no hidden-file copies are applied and no test targets run.
Otherwise apply the copies, run the required and partial targets, and
combine the outcomes into the report. -/
def runVerify (cfg : VerifyCfg) (env : VerifyEnv) : VerifyOutcome :=
  let problems := checkModificationRules env.isDir cfg.mustModify cfg.noModify env.changes
  if problems = [] then
    let testResults := runTestList env cfg.tests
    let pr := runPartial env cfg.partialTests
    let partialOK := match pr.2 with
      | none => true
      | some s => s == 1
    { report := { success := allPassed testResults && partialOK,
                  partialScore := pr.2,
                  tests := testResults, partialTests := pr.1 },
      copiesApplied := true, testsRun := true }
  else
    { report := { success := false, partialScore := none,
                  tests := [⟨"verify.modification-rules", false, "", goJoin "\n" problems⟩],
                  partialTests := [] },
      copiesApplied := false, testsRun := false }

def exCfgSecret : VerifyCfg := ⟨[], ["secret.txt"], [], []⟩

def exEnvSecret : VerifyEnv :=
  ⟨fun _ => false, ["secret.txt"], fun _ => true, fun _ => "", fun _ => "", fun _ => []⟩

def exCfgPartial : VerifyCfg := ⟨[], [], ["./pkg"], ["./..."]⟩

def exEnvPartial : VerifyEnv :=
  ⟨fun _ => false, ["main.go"], fun _ => true, fun _ => "", fun _ => "go test failed",
    fun _ => List.replicate 3 (JLine.event "pass" "TestA") ++
      List.replicate 7 (JLine.event "fail" "TestB")⟩

theorem eqv_refl (fs : FS) : eqv fs fs := fun _ => rfl

theorem eqv_symm {fs gs : FS} (h : eqv fs gs) : eqv gs fs := fun p => (h p).symm

theorem eqv_trans {fs gs hs : FS} (h₁ : eqv fs gs) (h₂ : eqv gs hs) : eqv fs hs :=
  fun p => (h₁ p).trans (h₂ p)

theorem look_fdel (fs : FS) (p q : Path) :
    look (fdel fs p) q = if q = p then none else look fs q := by
  induction fs with
  | nil => simp [fdel, look]
  | cons b rest ih =>
    obtain ⟨r, e⟩ := b
    by_cases hrp : r = p
    · subst hrp
      have hdrop : fdel ((r, e) :: rest) r = fdel rest r := by
        simp [fdel, List.filter_cons]
      rw [hdrop, ih]
      by_cases hqp : q = r
      · simp [hqp]
      · simp [hqp, look, Ne.symm hqp]
    · have hkeep : fdel ((r, e) :: rest) p = (r, e) :: fdel rest p := by
        simp [fdel, List.filter_cons, hrp]
      rw [hkeep]
      by_cases hrq : r = q
      · subst hrq
        simp [look, hrp, Ne.symm hrp]
      · simp [look, hrq, ih]

theorem look_fset_self (fs : FS) (p : Path) (e : Entry) :
    look (fset fs p e) p = some e := by
  simp [fset, look]

theorem look_fset_ne (fs : FS) (p q : Path) (e : Entry) (h : q ≠ p) :
    look (fset fs p e) q = look fs q := by
  simp [fset, look, Ne.symm h, look_fdel, h]

theorem look_fset (fs : FS) (p q : Path) (e : Entry) :
    look (fset fs p e) q = if q = p then some e else look fs q := by
  by_cases h : q = p
  · subst h; simp [look_fset_self]
  · simp [look_fset_ne fs p q e h, h]

theorem look_isSome_of_mem {fs : FS} {q : Path} {e : Entry} (h : (q, e) ∈ fs) :
    (look fs q).isSome := by
  induction fs with
  | nil => cases h
  | cons b rest ih =>
    obtain ⟨r, e'⟩ := b
    rcases List.mem_cons.mp h with h' | h'
    · cases h'
      simp [look]
    · by_cases hrq : r = q
      · simp [look, hrq]
      · simpa [look, hrq] using ih h'

theorem mem_of_look {fs : FS} {q : Path} {e : Entry} (h : look fs q = some e) :
    (q, e) ∈ fs := by
  induction fs with
  | nil => simp [look] at h
  | cons b rest ih =>
    obtain ⟨r, e'⟩ := b
    by_cases hrq : r = q
    · subst hrq
      simp [look] at h
      rcases h with rfl
      exact List.mem_cons_self _ _
    · simp only [look, if_neg hrq] at h
      exact List.mem_cons_of_mem _ (ih h)

theorem isPre_iff (a b : Path) : isPre a b = true ↔ a <+: b := by
  induction a generalizing b with
  | nil => simp [isPre]
  | cons x xs ih =>
    cases b with
    | nil => simp [isPre]
    | cons y ys =>
      simp only [isPre, Bool.and_eq_true, beq_iff_eq, List.cons_prefix_cons]
      exact and_congr Iff.rfl (ih ys)

theorem hasUnder_iff (fs : FS) (d : Path) :
    hasUnder fs d = true ↔ ∃ q, (look fs q).isSome ∧ d <+: q ∧ d ≠ q := by
  constructor
  · intro h
    rcases List.any_eq_true.mp h with ⟨⟨q, e⟩, hmem, hprop⟩
    simp only [Bool.and_eq_true, decide_eq_true_eq] at hprop
    exact ⟨q, look_isSome_of_mem hmem, (isPre_iff d q).mp hprop.1, hprop.2⟩
  · rintro ⟨q, hs, hpre, hne⟩
    rcases Option.isSome_iff_exists.mp hs with ⟨e, he⟩
    refine List.any_eq_true.mpr ⟨(q, e), mem_of_look he, ?_⟩
    simp only [Bool.and_eq_true, decide_eq_true_eq]
    exact ⟨(isPre_iff d q).mpr hpre, hne⟩

theorem hasUnder_congr {fs gs : FS} (h : eqv fs gs) (d : Path) :
    hasUnder fs d = hasUnder gs d := by
  by_cases hf : hasUnder fs d = true
  · rcases (hasUnder_iff fs d).mp hf with ⟨q, hq, hpre, hne⟩
    rw [hf]
    exact ((hasUnder_iff gs d).mpr ⟨q, by rw [← h q]; exact hq, hpre, hne⟩).symm
  · by_cases hg : hasUnder gs d = true
    · rcases (hasUnder_iff gs d).mp hg with ⟨q, hq, hpre, hne⟩
      exact absurd ((hasUnder_iff fs d).mpr ⟨q, by rw [h q]; exact hq, hpre, hne⟩) hf
    · rw [Bool.eq_false_iff.mpr hf, Bool.eq_false_iff.mpr hg]

theorem statP_congr {fs gs : FS} (h : eqv fs gs) (p : Path) :
    statP fs p = statP gs p := by
  cases p with
  | nil => rfl
  | cons a as => simpa [statP] using h (a :: as)

theorem statP_eq_look {p : Path} (hp : p ≠ []) (fs : FS) : statP fs p = look fs p := by
  cases p with
  | nil => exact absurd rfl hp
  | cons a as => rfl

theorem look_fremove_ne (fs : FS) (p q : Path) (h : q ≠ p) :
    look (fremove fs p) q = look fs q := by
  unfold fremove
  cases hl : look fs p with
  | none => rfl
  | some e =>
    cases e with
    | file c m => simp [look_fdel, h]
    | dir m =>
      by_cases hu : hasUnder fs p = true
      · simp [hu]
      · simp [hu, look_fdel, h]

theorem fremove_congr {fs gs : FS} (h : eqv fs gs) (p : Path) :
    eqv (fremove fs p) (fremove gs p) := by
  intro q
  unfold fremove
  rw [← h p, hasUnder_congr h p]
  cases look fs p with
  | none => exact h q
  | some e =>
    cases e with
    | file c m => simp [look_fdel, h q]
    | dir m =>
      by_cases hu : hasUnder gs p = true
      · simp [hu, h q]
      · simp [hu, look_fdel, h q]

theorem fset_congr {fs gs : FS} (h : eqv fs gs) (p : Path) (e : Entry) :
    eqv (fset fs p e) (fset gs p e) := by
  intro q
  by_cases hq : q = p
  · subst hq; simp [look_fset_self]
  · simp [look_fset_ne _ _ _ _ hq, h q]

theorem look_fset_same {fs : FS} {p : Path} {e : Entry} (h : look fs p = some e) :
    eqv (fset fs p e) fs := by
  intro q
  by_cases hq : q = p
  · subst hq; simp [look_fset_self, h]
  · simp [look_fset_ne _ _ _ _ hq]

theorem fremove_file {fs : FS} {p : Path} {c : String} {m : Nat}
    (h : look fs p = some (.file c m)) :
    ∀ q, look (fremove fs p) q = if q = p then none else look fs q := by
  intro q
  unfold fremove
  rw [h]
  simp [look_fdel]

theorem fremove_none {fs : FS} {p : Path} (h : look fs p = none) :
    fremove fs p = fs := by
  unfold fremove
  rw [h]

theorem undoOW_nil (fs : FS) : undoOW [] fs = fs := rfl

theorem undoPaths_nil (fs : FS) : undoPaths [] fs = fs := rfl

theorem undoOW_append (ow : List OW) (o : OW) (fs : FS) :
    undoOW (ow ++ [o]) fs = undoOW ow (fremove (restoreFile o fs) o.backup) := by
  simp [undoOW, List.reverse_append]

theorem undoPaths_append (ps : List Path) (p : Path) (fs : FS) :
    undoPaths (ps ++ [p]) fs = undoPaths ps (fremove fs p) := by
  simp [undoPaths, List.reverse_append]

theorem restoreFile_congr {fs gs : FS} (h : eqv fs gs) (o : OW) :
    eqv (restoreFile o fs) (restoreFile o gs) := by
  unfold restoreFile
  rw [statP_congr h o.backup]
  cases statP gs o.backup with
  | none => exact h
  | some e =>
    cases e with
    | file c m => exact fset_congr h _ _
    | dir m => exact h

theorem undoOW_congr (ow : List OW) {fs gs : FS} (h : eqv fs gs) :
    eqv (undoOW ow fs) (undoOW ow gs) := by
  unfold undoOW
  generalize ow.reverse = l
  induction l generalizing fs gs with
  | nil => exact h
  | cons o rest ih =>
    simp only [List.foldl_cons]
    exact ih (fremove_congr (restoreFile_congr h o) o.backup)

theorem undoPaths_congr (ps : List Path) {fs gs : FS} (h : eqv fs gs) :
    eqv (undoPaths ps fs) (undoPaths ps gs) := by
  unfold undoPaths
  generalize ps.reverse = l
  induction l generalizing fs gs with
  | nil => exact h
  | cons p rest ih =>
    simp only [List.foldl_cons]
    exact ih (fremove_congr h p)

theorem undoTxn_congr (t : Txn) {fs gs : FS} (h : eqv fs gs) :
    eqv (undoTxn t fs) (undoTxn t gs) :=
  undoPaths_congr _ (undoPaths_congr _ (undoOW_congr _ h))

theorem look_restoreFile_ne {o : OW} {p : Path} (h : o.path ≠ p) (fs : FS) :
    look (restoreFile o fs) p = look fs p := by
  unfold restoreFile
  cases statP fs o.backup with
  | none => rfl
  | some e =>
    cases e with
    | file c m => exact look_fset_ne _ _ _ _ (Ne.symm h)
    | dir m => rfl

theorem owSteps_look_ne {p : Path} : ∀ (l : List OW) (fs : FS),
    (∀ o ∈ l, o.path ≠ p ∧ o.backup ≠ p) →
    look (l.foldl (fun acc o => fremove (restoreFile o acc) o.backup) fs) p = look fs p := by
  intro l
  induction l with
  | nil => intro fs _; rfl
  | cons o rest ih =>
    intro fs h
    simp only [List.foldl_cons]
    rw [ih _ (fun o' ho' => h o' (List.mem_cons_of_mem _ ho'))]
    have hop := (h o (List.mem_cons_self _ _)).1
    have hob := (h o (List.mem_cons_self _ _)).2
    rw [look_fremove_ne _ _ _ (Ne.symm hob), look_restoreFile_ne hop]

theorem undoOW_look_ne {p : Path} (ow : List OW)
    (h : ∀ o ∈ ow, o.path ≠ p ∧ o.backup ≠ p) (fs : FS) :
    look (undoOW ow fs) p = look fs p :=
  owSteps_look_ne ow.reverse fs (fun o ho => h o (List.mem_reverse.mp ho))

theorem pathSteps_look_ne {p : Path} : ∀ (l : List Path) (fs : FS),
    (∀ q ∈ l, q ≠ p) →
    look (l.foldl (fun acc q => fremove acc q) fs) p = look fs p := by
  intro l
  induction l with
  | nil => intro fs _; rfl
  | cons q rest ih =>
    intro fs h
    simp only [List.foldl_cons]
    rw [ih _ (fun q' hq' => h q' (List.mem_cons_of_mem _ hq'))]
    exact look_fremove_ne _ _ _ (Ne.symm (h q (List.mem_cons_self _ _)))

theorem undoPaths_look_ne {p : Path} (ps : List Path)
    (h : ∀ q ∈ ps, q ≠ p) (fs : FS) :
    look (undoPaths ps fs) p = look fs p :=
  pathSteps_look_ne ps.reverse fs (fun q hq => h q (List.mem_reverse.mp hq))

theorem noDirAt_fset_file (fs : FS) (p q : Path) (c : String) (m : Nat)
    (h : noDirAt fs q) : noDirAt (fset fs p (.file c m)) q := by
  intro m' hm'
  by_cases hq : q = p
  · subst hq; rw [look_fset_self] at hm'; cases hm'
  · rw [look_fset_ne _ _ _ _ hq] at hm'; exact h m' hm'

theorem noDirAt_fremove (fs : FS) (p q : Path) (h : noDirAt fs q) :
    noDirAt (fremove fs p) q := by
  intro m' hm'
  by_cases hq : q = p
  · subst hq
    unfold fremove at hm'
    cases hl : look fs q with
    | none => rw [hl] at hm'; exact h m' hm'
    | some e =>
      cases e with
      | file c m =>
        rw [hl] at hm'; rw [look_fdel] at hm'; simp at hm'
      | dir md => exact h md hl
  · rw [look_fremove_ne _ _ _ hq] at hm'; exact h m' hm'

theorem noDirAt_restoreFile (o : OW) (fs : FS) {q : Path} (h : noDirAt fs q) :
    noDirAt (restoreFile o fs) q := by
  unfold restoreFile
  cases statP fs o.backup with
  | none => exact h
  | some e =>
    cases e with
    | file c m => exact noDirAt_fset_file fs o.path q c o.mode h
    | dir m => exact h

theorem noDirAt_undoOW (ow : List OW) (fs : FS) {q : Path} (h : noDirAt fs q) :
    noDirAt (undoOW ow fs) q := by
  unfold undoOW
  generalize ow.reverse = l
  induction l generalizing fs with
  | nil => exact h
  | cons o rest ih =>
    simp only [List.foldl_cons]
    exact ih _ (noDirAt_fremove _ _ _ (noDirAt_restoreFile o fs h))

theorem agreeExcept_owStep {p : Path} (o : OW) {S1 S2 : FS}
    (hag : agreeExcept p S1 S2)
    (hob : o.backup ≠ p ∧ o.backup ≠ [] ∧ noDirAt S1 o.backup) :
    agreeExcept p (fremove (restoreFile o S1) o.backup)
      (fremove (restoreFile o S2) o.backup) := by
  have hbeq : look S1 o.backup = look S2 o.backup := hag o.backup hob.1
  have hstat : statP S1 o.backup = statP S2 o.backup := by
    rw [statP_eq_look hob.2.1, statP_eq_look hob.2.1, hbeq]
  have hagr : agreeExcept p (restoreFile o S1) (restoreFile o S2) := by
    unfold restoreFile
    rw [hstat]
    cases statP S2 o.backup with
    | none => exact hag
    | some e =>
      cases e with
      | file c m =>
        intro q hq
        by_cases hqo : q = o.path
        · subst hqo; rw [look_fset_self, look_fset_self]
        · rw [look_fset_ne _ _ _ _ hqo, look_fset_ne _ _ _ _ hqo]
          exact hag q hq
      | dir m => exact hag
  have hble : look (restoreFile o S1) o.backup = look (restoreFile o S2) o.backup :=
    hagr o.backup hob.1
  have hnd : noDirAt (restoreFile o S1) o.backup :=
    noDirAt_restoreFile o S1 hob.2.2
  intro q hq
  by_cases hqb : q = o.backup
  · cases hlb : look (restoreFile o S1) o.backup with
    | none =>
      rw [fremove_none hlb, fremove_none (hble ▸ hlb)]
      exact hagr q hq
    | some e =>
      cases e with
      | file c m =>
        rw [fremove_file hlb q, fremove_file (hble ▸ hlb) q]
        simp [hqb]
      | dir m => exact absurd hlb (hnd m)
  · rw [look_fremove_ne _ _ _ hqb, look_fremove_ne _ _ _ hqb]
    exact hagr q hq

theorem agreeExcept_owSteps {p : Path} : ∀ (l : List OW) (S1 S2 : FS),
    agreeExcept p S1 S2 →
    (∀ o ∈ l, o.backup ≠ p ∧ o.backup ≠ [] ∧ noDirAt S1 o.backup) →
    agreeExcept p (l.foldl (fun acc o => fremove (restoreFile o acc) o.backup) S1)
      (l.foldl (fun acc o => fremove (restoreFile o acc) o.backup) S2) := by
  intro l
  induction l with
  | nil => intro S1 S2 hag _; exact hag
  | cons o rest ih =>
    intro S1 S2 hag hcond
    simp only [List.foldl_cons]
    refine ih _ _ (agreeExcept_owStep o hag (hcond o (List.mem_cons_self _ _))) ?_
    intro o' ho'
    have h' := hcond o' (List.mem_cons_of_mem _ ho')
    exact ⟨h'.1, h'.2.1, noDirAt_fremove _ _ _ (noDirAt_restoreFile o S1 h'.2.2)⟩

theorem agreeExcept_undoOW {p : Path} (ow : List OW) {S1 S2 : FS}
    (hag : agreeExcept p S1 S2)
    (hcond : ∀ o ∈ ow, o.backup ≠ p ∧ o.backup ≠ [] ∧ noDirAt S1 o.backup) :
    agreeExcept p (undoOW ow S1) (undoOW ow S2) :=
  agreeExcept_owSteps ow.reverse S1 S2 hag
    (fun o ho => hcond o (List.mem_reverse.mp ho))

theorem agreeExcept_pathStep {p : Path} (f : Path) {S1 S2 : FS}
    (hag : agreeExcept p S1 S2) (hf : f ≠ p ∧ noDirAt S1 f) :
    agreeExcept p (fremove S1 f) (fremove S2 f) := by
  have hfeq : look S1 f = look S2 f := hag f hf.1
  intro q hq
  by_cases hqf : q = f
  · cases hlf : look S1 f with
    | none =>
      rw [fremove_none hlf, fremove_none (hfeq ▸ hlf)]
      exact hag q hq
    | some e =>
      cases e with
      | file c m =>
        rw [fremove_file hlf q, fremove_file (hfeq ▸ hlf) q]
        simp [hqf]
      | dir m => exact absurd hlf (hf.2 m)
  · rw [look_fremove_ne _ _ _ hqf, look_fremove_ne _ _ _ hqf]
    exact hag q hq

theorem agreeExcept_pathSteps {p : Path} : ∀ (l : List Path) (S1 S2 : FS),
    agreeExcept p S1 S2 →
    (∀ f ∈ l, f ≠ p ∧ noDirAt S1 f) →
    agreeExcept p (l.foldl (fun acc f => fremove acc f) S1)
      (l.foldl (fun acc f => fremove acc f) S2) := by
  intro l
  induction l with
  | nil => intro S1 S2 hag _; exact hag
  | cons f rest ih =>
    intro S1 S2 hag hcond
    simp only [List.foldl_cons]
    refine ih _ _ (agreeExcept_pathStep f hag (hcond f (List.mem_cons_self _ _))) ?_
    intro f' hf'
    have h' := hcond f' (List.mem_cons_of_mem _ hf')
    exact ⟨h'.1, noDirAt_fremove _ _ _ h'.2⟩

theorem agreeExcept_undoPaths {p : Path} (ps : List Path) {S1 S2 : FS}
    (hag : agreeExcept p S1 S2)
    (hcond : ∀ f ∈ ps, f ≠ p ∧ noDirAt S1 f) :
    agreeExcept p (undoPaths ps S1) (undoPaths ps S2) :=
  agreeExcept_pathSteps ps.reverse S1 S2 hag
    (fun f hf => hcond f (List.mem_reverse.mp hf))

theorem WF_congr {fs gs : FS} (h : eqv gs fs) (hWF : WF fs) : WF gs := by
  intro p q hsome hqne hpre hne
  rw [h p] at hsome
  rcases hWF p q hsome hqne hpre hne with ⟨m, hm⟩
  exact ⟨m, by rw [h q]; exact hm⟩

theorem prefix_dropLast {q p : Path} (hpre : q <+: p) (hne : q ≠ p) :
    q <+: p.dropLast := by
  rcases hpre with ⟨t, ht⟩
  cases t with
  | nil =>
    have hqp : q = p := by simpa using ht
    exact absurd hqp hne
  | cons b l₂ =>
    subst ht
    rw [List.dropLast_append_cons]
    exact ⟨(b :: l₂).dropLast, rfl⟩

theorem nothing_under_fresh {fs : FS} (hWF : WF fs) {d : Path}
    (hfresh : look fs d = none) (hdne : d ≠ []) :
    ∀ q, d <+: q → d ≠ q → look fs q = none := by
  intro q hpre hne
  cases hl : look fs q with
  | none => rfl
  | some e =>
    rcases hWF q d (by rw [hl]; rfl) hdne hpre hne with ⟨m, hm⟩
    rw [hfresh] at hm
    cases hm

theorem WF_fset_dir {fs : FS} (hWF : WF fs) {d : Path} {m : Nat}
    (hfresh : look fs d = none)
    (hanc : ∀ q, q ≠ [] → q <+: d → q ≠ d → isDirAt fs q) :
    WF (fset fs d (.dir m)) := by
  intro p' q' hsome hqne hpre hne
  by_cases hq'd : q' = d
  · subst hq'd
    exact ⟨m, look_fset_self _ _ _⟩
  · by_cases hp'd : p' = d
    · subst hp'd
      rcases hanc q' hqne hpre hne with ⟨m', hm'⟩
      exact ⟨m', by rw [look_fset_ne _ _ _ _ hq'd]; exact hm'⟩
    · rw [look_fset_ne _ _ _ _ hp'd] at hsome
      rcases hWF p' q' hsome hqne hpre hne with ⟨m', hm'⟩
      exact ⟨m', by rw [look_fset_ne _ _ _ _ hq'd]; exact hm'⟩

theorem WF_fset_file {fs : FS} (hWF : WF fs) {p : Path} {c : String} {m : Nat}
    (hanc : ∀ q, q ≠ [] → q <+: p → q ≠ p → isDirAt fs q)
    (hnd : ¬ isDirAt fs p) :
    WF (fset fs p (.file c m)) := by
  intro p' q' hsome hqne hpre hne
  by_cases hq'p : q' = p
  · by_cases hp'p : p' = p
    · exact absurd (hq'p.trans hp'p.symm) hne
    · rw [look_fset_ne _ _ _ _ hp'p] at hsome
      exact absurd (hq'p ▸ hWF p' q' hsome hqne hpre hne) hnd
  · by_cases hp'p : p' = p
    · subst hp'p
      rcases hanc q' hqne hpre hne with ⟨m', hm'⟩
      exact ⟨m', by rw [look_fset_ne _ _ _ _ hq'p]; exact hm'⟩
    · rw [look_fset_ne _ _ _ _ hp'p] at hsome
      rcases hWF p' q' hsome hqne hpre hne with ⟨m', hm'⟩
      exact ⟨m', by rw [look_fset_ne _ _ _ _ hq'p]; exact hm'⟩

theorem inv_congr {fs0 fs fs' : FS} {txn : Txn} (inv : Inv fs0 fs txn)
    (h : eqv fs' fs) : Inv fs0 fs' txn := by
  refine ⟨?_, WF_congr h inv.wf, ?_, ?_, ?_, ?_, inv.baks_ne⟩
  · exact eqv_trans (undoTxn_congr _ h) inv.undo_eq
  · intro p hp
    rcases inv.files_exist p hp with ⟨c, m, hm⟩
    exact ⟨c, m, by rw [h p]; exact hm⟩
  · intro p hp
    rcases inv.dirs_exist p hp with ⟨m, hm⟩
    exact ⟨m, by rw [h p]; exact hm⟩
  · intro o ho
    rcases inv.ow_exist o ho with ⟨c, m, hm⟩
    exact ⟨c, m, by rw [h o.path]; exact hm⟩
  · intro o ho
    rcases inv.baks_exist o ho with ⟨c, m, hm⟩
    exact ⟨c, m, by rw [h o.backup]; exact hm⟩

theorem inv_init {fs0 : FS} (hWF : WF fs0) : Inv fs0 fs0 ⟨[], [], []⟩ := by
  refine ⟨?_, hWF, ?_, ?_, ?_, ?_, ?_⟩ <;>
    first
      | exact fun p => rfl
      | simp [Txn.createdFiles, Txn.createdDirs, Txn.overwritten]

theorem ne_of_isSome_fresh {fs : FS} {q p : Path}
    (hs : (look fs q).isSome) (hf : look fs p = none) : q ≠ p := by
  intro he
  rw [he, hf] at hs
  cases hs

theorem isFileAt_isSome {fs : FS} {p : Path} (h : isFileAt fs p) : (look fs p).isSome := by
  rcases h with ⟨c, m, hm⟩
  rw [hm]; rfl

theorem isDirAt_isSome {fs : FS} {p : Path} (h : isDirAt fs p) : (look fs p).isSome := by
  rcases h with ⟨m, hm⟩
  rw [hm]; rfl

theorem noDirAt_of_isFileAt {fs : FS} {p : Path} (h : isFileAt fs p) : noDirAt fs p := by
  rcases h with ⟨c, m, hm⟩
  intro m' hm'
  rw [hm] at hm'
  cases hm'

theorem noDirAt_of_fresh {fs : FS} {p : Path} (h : look fs p = none) : noDirAt fs p := by
  intro m' hm'
  rw [h] at hm'
  cases hm'

/-- Recording and creating a fresh directory preserves the invariant. -/
theorem inv_mkdir {fs0 fs : FS} {txn : Txn} {d : Path} {m : Nat}
    (inv : Inv fs0 fs txn) (hfresh : look fs d = none) (hdne : d ≠ [])
    (hanc : ∀ q, q ≠ [] → q <+: d → q ≠ d → isDirAt fs q) :
    Inv fs0 (fset fs d (.dir m))
      { txn with createdDirs := txn.createdDirs ++ [d] } := by
  have howp : ∀ o ∈ txn.overwritten, o.path ≠ d ∧ o.backup ≠ d := by
    intro o ho
    exact ⟨ne_of_isSome_fresh (isFileAt_isSome (inv.ow_exist o ho)) hfresh,
      ne_of_isSome_fresh (isFileAt_isSome (inv.baks_exist o ho)) hfresh⟩
  have hfd : ∀ f ∈ txn.createdFiles, f ≠ d := fun f hf =>
    ne_of_isSome_fresh (isFileAt_isSome (inv.files_exist f hf)) hfresh
  have hag : agreeExcept d (fset fs d (.dir m)) fs := fun q hq =>
    look_fset_ne _ _ _ _ hq
  have howconds : ∀ o ∈ txn.overwritten,
      o.backup ≠ d ∧ o.backup ≠ [] ∧ noDirAt (fset fs d (.dir m)) o.backup := by
    intro o ho
    refine ⟨(howp o ho).2, inv.baks_ne o ho, ?_⟩
    have hb : isFileAt (fset fs d (.dir m)) o.backup := by
      rcases inv.baks_exist o ho with ⟨c', m', hm'⟩
      exact ⟨c', m', by rw [look_fset_ne _ _ _ _ (howp o ho).2]; exact hm'⟩
    exact noDirAt_of_isFileAt hb
  have hagA : agreeExcept d (undoOW txn.overwritten (fset fs d (.dir m)))
      (undoOW txn.overwritten fs) := agreeExcept_undoOW _ hag howconds
  have hlookA : look (undoOW txn.overwritten (fset fs d (.dir m))) d = some (.dir m) := by
    rw [undoOW_look_ne _ howp, look_fset_self]
  have hfconds : ∀ f ∈ txn.createdFiles,
      f ≠ d ∧ noDirAt (undoOW txn.overwritten (fset fs d (.dir m))) f := by
    intro f hf
    refine ⟨hfd f hf, ?_⟩
    refine noDirAt_undoOW _ _ ?_
    have : isFileAt (fset fs d (.dir m)) f := by
      rcases inv.files_exist f hf with ⟨c', m', hm'⟩
      exact ⟨c', m', by rw [look_fset_ne _ _ _ _ (hfd f hf)]; exact hm'⟩
    exact noDirAt_of_isFileAt this
  have hagB : agreeExcept d
      (undoPaths txn.createdFiles (undoOW txn.overwritten (fset fs d (.dir m))))
      (undoPaths txn.createdFiles (undoOW txn.overwritten fs)) :=
    agreeExcept_undoPaths _ hagA hfconds
  have hlookB : look (undoPaths txn.createdFiles
      (undoOW txn.overwritten (fset fs d (.dir m)))) d = some (.dir m) := by
    rw [undoPaths_look_ne _ (hfd), hlookA]
  -- nothing lies strictly under d after the first two undo phases
  have hnothing : ∀ q, d <+: q → d ≠ q →
      look (undoPaths txn.createdFiles
        (undoOW txn.overwritten (fset fs d (.dir m)))) q = none := by
    intro q hpre hne
    have hq0 : look fs q = none := nothing_under_fresh inv.wf hfresh hdne q hpre hne
    have hqd : q ≠ d := fun he => hne he.symm
    have hq1 : look (fset fs d (.dir m)) q = none := by
      rw [look_fset_ne _ _ _ _ hqd]; exact hq0
    have hq2 : look (undoOW txn.overwritten (fset fs d (.dir m))) q = look (fset fs d (.dir m)) q := by
      refine undoOW_look_ne _ ?_ _
      intro o ho
      have h1 : o.path ≠ q := by
        rcases inv.ow_exist o ho with ⟨c', m', hm'⟩
        exact ne_of_isSome_fresh (by rw [hm']; rfl) hq0
      have h2 : o.backup ≠ q := by
        rcases inv.baks_exist o ho with ⟨c', m', hm'⟩
        exact ne_of_isSome_fresh (by rw [hm']; rfl) hq0
      exact ⟨h1, h2⟩
    have hq3 : ∀ f ∈ txn.createdFiles, f ≠ q := by
      intro f hf
      exact ne_of_isSome_fresh (isFileAt_isSome (inv.files_exist f hf)) hq0
    rw [undoPaths_look_ne _ hq3, hq2, hq1]
  refine ⟨?_, WF_fset_dir inv.wf hfresh hanc, ?_, ?_, ?_, ?_, ?_⟩
  · -- undo_eq
    intro p
    show look (undoTxn _ _) p = _
    unfold undoTxn undoChanges
    simp only []
    rw [undoPaths_append]
    have hrem : eqv (fremove (undoPaths txn.createdFiles
        (undoOW txn.overwritten (fset fs d (.dir m)))) d)
        (undoPaths txn.createdFiles (undoOW txn.overwritten fs)) := by
      have hunder : hasUnder (undoPaths txn.createdFiles
          (undoOW txn.overwritten (fset fs d (.dir m)))) d = false := by
        by_contra hcontra
        have hT := Bool.of_not_eq_false hcontra
        rcases (hasUnder_iff _ _).mp hT with ⟨q, hqs, hpre, hne⟩
        rw [hnothing q hpre hne] at hqs
        cases hqs
      intro q
      unfold fremove
      rw [hlookB, hunder]
      simp only [Bool.false_eq_true, if_false]
      by_cases hqd : q = d
      · rw [look_fdel]
        rw [if_pos hqd, hqd]
        rw [undoPaths_look_ne _ hfd, undoOW_look_ne _ howp, hfresh]
      · rw [look_fdel]
        rw [if_neg hqd]
        exact hagB q hqd
    have := undoPaths_congr txn.createdDirs hrem
    exact (this p).trans (inv.undo_eq p)
  · intro f hf
    rcases inv.files_exist f hf with ⟨c', m', hm'⟩
    exact ⟨c', m', by rw [look_fset_ne _ _ _ _ (hfd f hf)]; exact hm'⟩
  · intro p hp
    rcases List.mem_append.mp hp with hp' | hp'
    · rcases inv.dirs_exist p hp' with ⟨m', hm'⟩
      have hpd : p ≠ d := ne_of_isSome_fresh (by rw [hm']; rfl) hfresh
      exact ⟨m', by rw [look_fset_ne _ _ _ _ hpd]; exact hm'⟩
    · rcases List.mem_singleton.mp hp' with rfl
      exact ⟨m, look_fset_self _ _ _⟩
  · intro o ho
    rcases inv.ow_exist o ho with ⟨c', m', hm'⟩
    exact ⟨c', m', by rw [look_fset_ne _ _ _ _ (howp o ho).1]; exact hm'⟩
  · intro o ho
    rcases inv.baks_exist o ho with ⟨c', m', hm'⟩
    exact ⟨c', m', by rw [look_fset_ne _ _ _ _ (howp o ho).2]; exact hm'⟩
  · exact inv.baks_ne

/-- Recording and creating a fresh file preserves the invariant. -/
theorem inv_createFile {fs0 fs : FS} {txn : Txn} {dst : Path} {c : String} {m : Nat}
    (inv : Inv fs0 fs txn) (hfresh : look fs dst = none)
    (hanc : ∀ q, q ≠ [] → q <+: dst → q ≠ dst → isDirAt fs q) :
    Inv fs0 (fset fs dst (.file c m))
      { txn with createdFiles := txn.createdFiles ++ [dst] } := by
  have howp : ∀ o ∈ txn.overwritten, o.path ≠ dst ∧ o.backup ≠ dst := by
    intro o ho
    exact ⟨ne_of_isSome_fresh (isFileAt_isSome (inv.ow_exist o ho)) hfresh,
      ne_of_isSome_fresh (isFileAt_isSome (inv.baks_exist o ho)) hfresh⟩
  have hfd : ∀ f ∈ txn.createdFiles, f ≠ dst := fun f hf =>
    ne_of_isSome_fresh (isFileAt_isSome (inv.files_exist f hf)) hfresh
  have hdd : ∀ d ∈ txn.createdDirs, d ≠ dst := fun d hd =>
    ne_of_isSome_fresh (isDirAt_isSome (inv.dirs_exist d hd)) hfresh
  have hag : agreeExcept dst (fset fs dst (.file c m)) fs := fun q hq =>
    look_fset_ne _ _ _ _ hq
  have howconds : ∀ o ∈ txn.overwritten,
      o.backup ≠ dst ∧ o.backup ≠ [] ∧ noDirAt (fset fs dst (.file c m)) o.backup := by
    intro o ho
    refine ⟨(howp o ho).2, inv.baks_ne o ho, ?_⟩
    exact noDirAt_fset_file _ _ _ _ _ (noDirAt_of_isFileAt (inv.baks_exist o ho))
  have hagA : agreeExcept dst (undoOW txn.overwritten (fset fs dst (.file c m)))
      (undoOW txn.overwritten fs) := agreeExcept_undoOW _ hag howconds
  have hlookA : look (undoOW txn.overwritten (fset fs dst (.file c m))) dst =
      some (.file c m) := by
    rw [undoOW_look_ne _ howp, look_fset_self]
  have hlookA2 : look (undoOW txn.overwritten fs) dst = none := by
    rw [undoOW_look_ne _ howp, hfresh]
  refine ⟨?_, ?_, ?_, ?_, ?_, ?_, inv.baks_ne⟩
  · -- undo_eq
    intro p
    unfold undoTxn undoChanges
    simp only []
    rw [undoPaths_append]
    have hrem : eqv (fremove (undoOW txn.overwritten (fset fs dst (.file c m))) dst)
        (undoOW txn.overwritten fs) := by
      intro q
      rw [fremove_file hlookA q]
      by_cases hqd : q = dst
      · rw [if_pos hqd, hqd, hlookA2]
      · rw [if_neg hqd]
        exact hagA q hqd
    have h2 := undoPaths_congr txn.createdFiles hrem
    have h3 := undoPaths_congr txn.createdDirs h2
    exact (h3 p).trans (inv.undo_eq p)
  · refine WF_fset_file inv.wf hanc ?_
    intro hd
    rcases hd with ⟨m', hm'⟩
    rw [hfresh] at hm'
    cases hm'
  · intro f hf
    rcases List.mem_append.mp hf with hf' | hf'
    · rcases inv.files_exist f hf' with ⟨c', m', hm'⟩
      exact ⟨c', m', by rw [look_fset_ne _ _ _ _ (hfd f hf')]; exact hm'⟩
    · rcases List.mem_singleton.mp hf' with rfl
      exact ⟨c, m, look_fset_self _ _ _⟩
  · intro d hd
    rcases inv.dirs_exist d hd with ⟨m', hm'⟩
    exact ⟨m', by rw [look_fset_ne _ _ _ _ (hdd d hd)]; exact hm'⟩
  · intro o ho
    rcases inv.ow_exist o ho with ⟨c', m', hm'⟩
    exact ⟨c', m', by rw [look_fset_ne _ _ _ _ (howp o ho).1]; exact hm'⟩
  · intro o ho
    rcases inv.baks_exist o ho with ⟨c', m', hm'⟩
    exact ⟨c', m', by rw [look_fset_ne _ _ _ _ (howp o ho).2]; exact hm'⟩

/-- Recording a fresh file without renaming it into place (the rename
failed) keeps the rollback exact: undoing the extended records still
restores the pre-call filesystem. -/
theorem inv_createRecordOnly {fs0 fs : FS} {txn : Txn} {dst : Path}
    (inv : Inv fs0 fs txn) (hfresh : look fs dst = none) :
    eqv (undoTxn { txn with createdFiles := txn.createdFiles ++ [dst] } fs) fs0 := by
  have howp : ∀ o ∈ txn.overwritten, o.path ≠ dst ∧ o.backup ≠ dst := by
    intro o ho
    exact ⟨ne_of_isSome_fresh (isFileAt_isSome (inv.ow_exist o ho)) hfresh,
      ne_of_isSome_fresh (isFileAt_isSome (inv.baks_exist o ho)) hfresh⟩
  intro p
  unfold undoTxn undoChanges
  simp only []
  rw [undoPaths_append]
  have hlook : look (undoOW txn.overwritten fs) dst = none := by
    rw [undoOW_look_ne _ howp, hfresh]
  rw [fremove_none hlook]
  exact inv.undo_eq p

/-- Backing up an existing destination file, recording the overwrite, and
renaming the new content into place preserves the invariant. -/
theorem inv_overwrite {fs0 fs : FS} {txn : Txn} {dst bpath : Path}
    {c0 c : String} {m0 bkm m : Nat}
    (inv : Inv fs0 fs txn) (hdst : look fs dst = some (.file c0 m0))
    (hbfresh : look fs bpath = none) (hbne : bpath ≠ [])
    (hancb : ∀ q, q ≠ [] → q <+: bpath → q ≠ bpath → isDirAt fs q) :
    Inv fs0 (fset (fset fs bpath (.file c0 bkm)) dst (.file c m))
      { txn with overwritten := txn.overwritten ++ [⟨dst, bpath, m0⟩] } := by
  have hdb : dst ≠ bpath := ne_of_isSome_fresh (by rw [hdst]; rfl) hbfresh
  have hbd : bpath ≠ dst := Ne.symm hdb
  set T := fset (fset fs bpath (.file c0 bkm)) dst (.file c m) with hT
  have hlookTb : look T bpath = some (.file c0 bkm) := by
    rw [hT, look_fset_ne _ _ _ _ hbd, look_fset_self]
  have hlookTd : look T dst = some (.file c m) := by
    rw [hT, look_fset_self]
  have hlookT_other : ∀ q, q ≠ dst → q ≠ bpath → look T q = look fs q := by
    intro q h1 h2
    rw [hT, look_fset_ne _ _ _ _ h1, look_fset_ne _ _ _ _ h2]
  refine ⟨?_, ?_, ?_, ?_, ?_, ?_, ?_⟩
  · -- undo_eq: undo the new record first, landing back on fs, then reuse inv
    intro p
    unfold undoTxn undoChanges
    simp only []
    rw [undoOW_append]
    have hrestore : restoreFile ⟨dst, bpath, m0⟩ T = fset T dst (.file c0 m0) := by
      unfold restoreFile
      rw [statP_eq_look hbne, hlookTb]
    have hlookRb : look (fset T dst (.file c0 m0)) bpath = some (.file c0 bkm) := by
      rw [look_fset_ne _ _ _ _ hbd, hlookTb]
    have hrem : eqv (fremove (restoreFile ⟨dst, bpath, m0⟩ T) bpath) fs := by
      rw [hrestore]
      intro q
      rw [fremove_file hlookRb q]
      by_cases hqb : q = bpath
      · rw [if_pos hqb, hqb, hbfresh]
      · rw [if_neg hqb]
        by_cases hqd : q = dst
        · rw [hqd, look_fset_self, hdst]
        · rw [look_fset_ne _ _ _ _ hqd]
          exact hlookT_other q hqd hqb
    have h1 := undoOW_congr txn.overwritten hrem
    have h2 := undoPaths_congr txn.createdFiles h1
    have h3 := undoPaths_congr txn.createdDirs h2
    exact (h3 p).trans (inv.undo_eq p)
  · -- well-formedness
    have hWF1 : WF (fset fs bpath (.file c0 bkm)) := by
      refine WF_fset_file inv.wf hancb ?_
      rintro ⟨m', hm'⟩
      rw [hbfresh] at hm'
      cases hm'
    refine WF_fset_file hWF1 ?_ ?_
    · intro q hqne hpre hne
      rcases inv.wf dst q (by rw [hdst]; rfl) hqne hpre hne with ⟨m', hm'⟩
      have hqb : q ≠ bpath := ne_of_isSome_fresh (by rw [hm']; rfl) hbfresh
      exact ⟨m', by rw [look_fset_ne _ _ _ _ hqb]; exact hm'⟩
    · rintro ⟨m', hm'⟩
      rw [look_fset_ne _ _ _ _ hdb, hdst] at hm'
      cases hm'
  · -- createdFiles still denote files
    intro f hf
    by_cases hfdst : f = dst
    · exact ⟨c, m, by rw [hfdst]; exact hlookTd⟩
    · have hfb : f ≠ bpath :=
        ne_of_isSome_fresh (isFileAt_isSome (inv.files_exist f hf)) hbfresh
      rcases inv.files_exist f hf with ⟨c', m', hm'⟩
      exact ⟨c', m', by rw [hlookT_other f hfdst hfb]; exact hm'⟩
  · -- createdDirs still denote directories
    intro d hd
    have hddst : d ≠ dst := by
      intro he
      rcases inv.dirs_exist d hd with ⟨m', hm'⟩
      rw [he, hdst] at hm'
      cases hm'
    have hdbp : d ≠ bpath :=
      ne_of_isSome_fresh (isDirAt_isSome (inv.dirs_exist d hd)) hbfresh
    rcases inv.dirs_exist d hd with ⟨m', hm'⟩
    exact ⟨m', by rw [hlookT_other d hddst hdbp]; exact hm'⟩
  · -- overwritten paths still denote files
    intro o ho
    rcases List.mem_append.mp ho with ho' | ho'
    · by_cases hodst : o.path = dst
      · exact ⟨c, m, by rw [hodst]; exact hlookTd⟩
      · have hob : o.path ≠ bpath :=
          ne_of_isSome_fresh (isFileAt_isSome (inv.ow_exist o ho')) hbfresh
        rcases inv.ow_exist o ho' with ⟨c', m', hm'⟩
        exact ⟨c', m', by rw [hlookT_other o.path hodst hob]; exact hm'⟩
    · rcases List.mem_singleton.mp ho' with rfl
      exact ⟨c, m, hlookTd⟩
  · -- backups still denote files
    intro o ho
    rcases List.mem_append.mp ho with ho' | ho'
    · by_cases hodst : o.backup = dst
      · exact ⟨c, m, by rw [hodst]; exact hlookTd⟩
      · have hob : o.backup ≠ bpath :=
          ne_of_isSome_fresh (isFileAt_isSome (inv.baks_exist o ho')) hbfresh
        rcases inv.baks_exist o ho' with ⟨c', m', hm'⟩
        exact ⟨c', m', by rw [hlookT_other o.backup hodst hob]; exact hm'⟩
    · rcases List.mem_singleton.mp ho' with rfl
      exact ⟨c0, bkm, hlookTb⟩
  · -- backup paths are nonempty
    intro o ho
    rcases List.mem_append.mp ho with ho' | ho'
    · exact inv.baks_ne o ho'
    · rcases List.mem_singleton.mp ho' with rfl
      exact hbne

/-- Backing up an existing destination and recording the overwrite, with
the final rename failing, keeps the rollback exact: restoring from the
backup rewrites the destination with the bytes it still holds, and the
backup is deleted, so undoing the extended records restores the pre-call
filesystem. -/
theorem inv_owPartial {fs0 fs : FS} {txn : Txn} {dst bpath : Path}
    {c0 : String} {m0 bkm : Nat}
    (inv : Inv fs0 fs txn) (hdst : look fs dst = some (.file c0 m0))
    (hbfresh : look fs bpath = none) (hbne : bpath ≠ []) :
    eqv (undoTxn { txn with overwritten := txn.overwritten ++ [⟨dst, bpath, m0⟩] }
      (fset fs bpath (.file c0 bkm))) fs0 := by
  have hdb : dst ≠ bpath := ne_of_isSome_fresh (by rw [hdst]; rfl) hbfresh
  have hbd : bpath ≠ dst := Ne.symm hdb
  set T := fset fs bpath (.file c0 bkm) with hT
  have hlookTb : look T bpath = some (.file c0 bkm) := by
    rw [hT, look_fset_self]
  intro p
  unfold undoTxn undoChanges
  simp only []
  rw [undoOW_append]
  have hrestore : restoreFile ⟨dst, bpath, m0⟩ T = fset T dst (.file c0 m0) := by
    unfold restoreFile
    rw [statP_eq_look hbne, hlookTb]
  have hlookRb : look (fset T dst (.file c0 m0)) bpath = some (.file c0 bkm) := by
    rw [look_fset_ne _ _ _ _ hbd, hlookTb]
  have hrem : eqv (fremove (restoreFile ⟨dst, bpath, m0⟩ T) bpath) fs := by
    rw [hrestore]
    intro q
    rw [fremove_file hlookRb q]
    by_cases hqb : q = bpath
    · rw [if_pos hqb, hqb, hbfresh]
    · rw [if_neg hqb]
      by_cases hqd : q = dst
      · rw [hqd, look_fset_self, hdst]
      · rw [look_fset_ne _ _ _ _ hqd, hT, look_fset_ne _ _ _ _ hqb]
  have h1 := undoOW_congr txn.overwritten hrem
  have h2 := undoPaths_congr txn.createdFiles h1
  have h3 := undoPaths_congr txn.createdDirs h2
  exact (h3 p).trans (inv.undo_eq p)

theorem foldSets_nil (mode : Nat) (fs : FS) : foldSets mode fs [] = fs := rfl

theorem foldSets_cons (mode : Nat) (fs : FS) (q : Path) (l : List Path) :
    foldSets mode fs (q :: l) = foldSets mode (fset fs q (.dir mode)) l := rfl

theorem foldSets_look_ne (mode : Nat) : ∀ (l : List Path) (fs : FS) (x : Path),
    x ∉ l → look (foldSets mode fs l) x = look fs x := by
  intro l
  induction l with
  | nil => intro fs x _; rfl
  | cons q rest ih =>
    intro fs x hx
    have hxq : x ≠ q := fun he => hx (by rw [he]; exact List.mem_cons_self _ _)
    rw [foldSets_cons, ih _ _ (fun hm => hx (List.mem_cons_of_mem _ hm)),
      look_fset_ne _ _ _ _ hxq]

theorem foldSets_look_mem (mode : Nat) : ∀ (l : List Path) (fs : FS) (x : Path),
    x ∈ l → look (foldSets mode fs l) x = some (.dir mode) := by
  intro l
  induction l with
  | nil => intro fs x hx; cases hx
  | cons q rest ih =>
    intro fs x hx
    by_cases hxr : x ∈ rest
    · exact ih _ _ hxr
    · have hxq : x = q := by
        rcases List.mem_cons.mp hx with h | h
        · exact h
        · exact absurd h hxr
      rw [foldSets_cons, foldSets_look_ne mode rest _ _ hxr, hxq, look_fset_self]

theorem chain_not_mem {mode : Nat} : ∀ {fs : FS} {l : List Path} {x : Path},
    Chain mode fs l → (look fs x).isSome → x ∉ l := by
  intro fs l x hc
  induction hc with
  | nil => intro _ h; cases h
  | cons fs d rest hne hfresh hpar hrest ih =>
    intro hs hmem
    rcases List.mem_cons.mp hmem with h | h
    · rw [h, hfresh] at hs; cases hs
    · refine ih ?_ h
      by_cases hxd : x = d
      · rw [hxd, look_fset_self]; rfl
      · rw [look_fset_ne _ _ _ _ hxd]; exact hs

theorem chain_snoc {mode : Nat} : ∀ {fs : FS} {l : List Path} {d : Path},
    Chain mode fs l → d ≠ [] → look (foldSets mode fs l) d = none →
    (d.dropLast = [] ∨ isDirAt (foldSets mode fs l) d.dropLast) →
    Chain mode fs (l ++ [d]) := by
  intro fs l d hc
  induction hc with
  | nil fs =>
    intro hne hfresh hpar
    rw [foldSets_nil] at hfresh hpar
    exact Chain.cons fs d [] hne hfresh hpar (Chain.nil _)
  | cons fs d₀ rest hne₀ hfresh₀ hpar₀ hrest ih =>
    intro hne hfresh hpar
    rw [foldSets_cons] at hfresh hpar
    exact Chain.cons fs d₀ (rest ++ [d]) hne₀ hfresh₀ hpar₀ (ih hne hfresh hpar)

theorem anc_from_parent {fs : FS} (hWF : WF fs) {p : Path}
    (hpar : p.dropLast = [] ∨ isDirAt fs p.dropLast) :
    ∀ q, q ≠ [] → q <+: p → q ≠ p → isDirAt fs q := by
  intro q hqne hpre hne
  have hq' : q <+: p.dropLast := prefix_dropLast hpre hne
  rcases hpar with hnil | hdir
  · rw [hnil] at hq'
    exact absurd (List.prefix_nil.mp hq') hqne
  · by_cases hqd : q = p.dropLast
    · rw [hqd]; exact hdir
    · exact hWF p.dropLast q (isDirAt_isSome hdir) hqne hq' hqd

theorem chain_eq_cons {p : Path} (hp : p ≠ []) : chain p = p :: chain p.dropLast := by
  rcases List.exists_cons_of_ne_nil hp with ⟨a, as, rfl⟩
  show chain (a :: as) = _
  unfold chain
  have hlen : (a :: as).length = as.length + 1 := rfl
  rw [hlen, List.range_succ_eq_map]
  simp only [List.map_cons, List.map_map]
  congr 1
  · simp
  · have hdl : (a :: as).dropLast.length = as.length := by
      simp [List.length_dropLast]
    rw [hdl]
    apply List.map_congr_left
    intro i hi
    have hi' : i < as.length := List.mem_range.mp hi
    have h1 : as.length + 1 - (i + 1) = as.length - i := by omega
    simp only [Function.comp]
    rw [h1]
    have hdt : (a :: as).dropLast = (a :: as).take (as.length) := by
      rw [List.dropLast_eq_take]
      simp
    rw [hdt, List.take_take]
    congr 1
    omega

theorem collectMissing_nil (fs : FS) : collectMissing fs [] = .ok [] := rfl

theorem collectMissing_eq {fs : FS} {p : Path} (hp : p ≠ []) :
    collectMissing fs p =
      match statP fs p with
      | none =>
        match collectMissing fs p.dropLast with
        | .ok ms => .ok (p :: ms)
        | .error e => .error e
      | some (.dir _) => .ok []
      | some (.file _ _) => .error (.notADir p) := by
  unfold collectMissing
  rw [chain_eq_cons hp]
  rfl

theorem mem_chain_iff {q p : Path} : q ∈ chain p ↔ q ≠ [] ∧ q <+: p := by
  unfold chain
  simp only [List.mem_map, List.mem_range]
  constructor
  · rintro ⟨i, hi, rfl⟩
    constructor
    · have : (p.take (p.length - i)).length = p.length - i := by
        rw [List.length_take]; omega
      intro he
      rw [he] at this
      simp at this
      omega
    · exact List.take_prefix _ _
  · rintro ⟨hne, hpre⟩
    have hlen : q.length ≤ p.length := hpre.length_le
    have hpos : 0 < q.length := List.length_pos.mpr hne
    refine ⟨p.length - q.length, by omega, ?_⟩
    have h1 : p.length - (p.length - q.length) = q.length := by omega
    rw [h1]
    exact (List.prefix_iff_eq_take.mp hpre).symm

theorem spec_collectMissing (mode : Nat) :
    ∀ (n : Nat) (p : Path) (fs : FS) (ms : List Path), p.length ≤ n →
      collectMissing fs p = .ok ms →
      (∀ q ∈ ms, q ≠ [] ∧ q <+: p ∧ look fs q = none) ∧
      Chain mode fs ms.reverse ∧
      (ms = [] → (p = [] ∨ ∃ m', look fs p = some (.dir m'))) ∧
      (p ≠ [] → look fs p = none → ∃ rest, ms = p :: rest) := by
  intro n
  induction n with
  | zero =>
    intro p fs ms hlen hok
    have hp : p = [] := List.length_eq_zero.mp (Nat.le_zero.mp hlen)
    subst hp
    rw [collectMissing_nil] at hok
    cases hok
    exact ⟨by simp, Chain.nil _, fun _ => Or.inl rfl, fun h => absurd rfl h⟩
  | succ n ih =>
    intro p fs ms hlen hok
    by_cases hp : p = []
    · subst hp
      rw [collectMissing_nil] at hok
      cases hok
      exact ⟨by simp, Chain.nil _, fun _ => Or.inl rfl, fun h => absurd rfl h⟩
    · rw [collectMissing_eq hp, statP_eq_look hp] at hok
      cases hlook : look fs p with
      | none =>
        rw [hlook] at hok
        cases hrec : collectMissing fs p.dropLast with
        | ok ms' =>
          rw [hrec] at hok
          simp only [Except.ok.injEq] at hok
          subst hok
          have hdlen : p.dropLast.length ≤ n := by
            have := List.length_dropLast p
            omega
          obtain ⟨hS1, hS2, hS3, hS4⟩ := ih p.dropLast fs ms' hdlen hrec
          have hmem_ne : ∀ q ∈ ms', q ≠ p := by
            intro q hq he
            have hpre := (hS1 q hq).2.1
            have := hpre.length_le
            rw [he] at this
            have := List.length_dropLast p
            have hpos : 0 < p.length := List.length_pos.mpr hp
            omega
          refine ⟨?_, ?_, ?_, ?_⟩
          · intro q hq
            rcases List.mem_cons.mp hq with rfl | hq'
            · exact ⟨hp, List.prefix_refl _, hlook⟩
            · obtain ⟨h1, h2, h3⟩ := hS1 q hq'
              exact ⟨h1, h2.trans (List.dropLast_prefix p), h3⟩
          · show Chain mode fs (p :: ms').reverse
            rw [List.reverse_cons]
            refine chain_snoc hS2 hp ?_ ?_
            · rw [foldSets_look_ne mode _ _ _ ?_, hlook]
              intro hmem
              exact hmem_ne p (List.mem_reverse.mp hmem) rfl
            · by_cases hdpe : p.dropLast = []
              · exact Or.inl hdpe
              · cases hdlook : look fs p.dropLast with
                | none =>
                  obtain ⟨rest, hrest⟩ := hS4 hdpe hdlook
                  refine Or.inr ⟨mode, ?_⟩
                  refine foldSets_look_mem mode _ _ _ ?_
                  rw [hrest]
                  exact List.mem_reverse.mpr (List.mem_cons_self _ _)
                | some e =>
                  cases e with
                  | file c' m' =>
                    rw [collectMissing_eq hdpe, statP_eq_look hdpe, hdlook] at hrec
                    cases hrec
                  | dir m' =>
                    rw [collectMissing_eq hdpe, statP_eq_look hdpe, hdlook] at hrec
                    simp only [Except.ok.injEq] at hrec
                    subst hrec
                    refine Or.inr ⟨m', ?_⟩
                    simp only [List.reverse_nil, foldSets_nil]
                    exact hdlook
          · intro h; cases h
          · intro _ _; exact ⟨ms', rfl⟩
        | error e =>
          rw [hrec] at hok
          cases hok
      | some e =>
        cases e with
        | file c' m' =>
          rw [hlook] at hok
          cases hok
        | dir m' =>
          rw [hlook] at hok
          simp only [Except.ok.injEq] at hok
          subst hok
          refine ⟨by simp, Chain.nil _, fun _ => Or.inr ⟨m', rfl⟩, ?_⟩
          intro _ h
          exact Option.noConfusion h

theorem fremove_fset_dir_fresh {fs : FS} (hWF : WF fs) {d : Path} {m : Nat}
    (hfresh : look fs d = none) (hdne : d ≠ []) :
    eqv (fremove (fset fs d (.dir m)) d) fs := by
  have hunder : hasUnder (fset fs d (.dir m)) d = false := by
    by_contra hcontra
    have hT := Bool.of_not_eq_false hcontra
    rcases (hasUnder_iff _ _).mp hT with ⟨q, hqs, hpre, hne⟩
    have hqd : q ≠ d := fun he => hne he.symm
    rw [look_fset_ne _ _ _ _ hqd, nothing_under_fresh hWF hfresh hdne q hpre hne] at hqs
    cases hqs
  intro q
  unfold fremove
  rw [look_fset_self, hunder]
  simp only [Bool.false_eq_true, if_false]
  by_cases hqd : q = d
  · rw [look_fdel, if_pos hqd, hqd, hfresh]
  · rw [look_fdel, if_neg hqd, look_fset_ne _ _ _ _ hqd]

theorem spec_mkDirs (env : Nat → Bool) (mode : Nat) (fs0 : FS) :
    ∀ (ds : List Path) (txn : Txn) (st st' : St) (r : Except CErr (List Path)),
      Chain mode st.fs ds → Inv fs0 st.fs txn →
      mkDirs env mode ds st = (st', r) →
      (match r with
       | .error _ => eqv st'.fs st.fs
       | .ok created =>
         created = ds ∧
         Inv fs0 st'.fs { txn with createdDirs := txn.createdDirs ++ ds } ∧
         (∀ q, q ∉ ds → look st'.fs q = look st.fs q) ∧
         (∀ q ∈ ds, look st.fs q = none ∧ look st'.fs q = some (.dir mode))) := by
  intro ds
  induction ds with
  | nil =>
    intro txn st st' r _ hinv heq
    simp only [mkDirs] at heq
    cases heq
    refine ⟨rfl, ?_, fun q _ => rfl, fun q hq => absurd hq (List.not_mem_nil q)⟩
    have : { txn with createdDirs := txn.createdDirs ++ ([] : List Path) } = txn := by
      simp
    rw [this]
    exact hinv
  | cons d rest ih =>
    intro txn st st' r hchain hinv heq
    cases hchain with
    | cons _ _ _ hne hfresh hpar hrest =>
      have hstat : statP st.fs d = none := by
        rw [statP_eq_look hne]; exact hfresh
      rw [mkDirs, hstat] at heq
      simp only [ioStep] at heq
      by_cases hfail : env st.tick = true
      · rw [if_pos hfail] at heq
        cases heq
        exact fun p => rfl
      · rw [if_neg hfail] at heq
        set st2 : St := { st with tick := st.tick + 1, fs := fset st.fs d (.dir mode) }
          with hst2
        have hst2fs : st2.fs = fset st.fs d (.dir mode) := rfl
        have hanc : ∀ q, q ≠ [] → q <+: d → q ≠ d → isDirAt st.fs q :=
          anc_from_parent hinv.wf hpar
        have hinv2 : Inv fs0 st2.fs { txn with createdDirs := txn.createdDirs ++ [d] } := by
          rw [hst2fs]
          exact inv_mkdir hinv hfresh hne hanc
        have hchain2 : Chain mode st2.fs rest := by rw [hst2fs]; exact hrest
        cases hrec : mkDirs env mode rest st2 with
        | mk st3 r3 =>
          have IH := ih { txn with createdDirs := txn.createdDirs ++ [d] } st2 st3 r3
            hchain2 hinv2 hrec
          cases r3 with
          | ok created' =>
            rw [hrec] at heq
            cases heq
            simp only at IH
            obtain ⟨hcr, hinv3, hframe, hmem⟩ := IH
            subst hcr
            have hdnotin : d ∉ created' := by
              refine chain_not_mem hchain2 ?_
              rw [hst2fs, look_fset_self]; rfl
            refine ⟨rfl, ?_, ?_, ?_⟩
            · have : { txn with createdDirs := txn.createdDirs ++ d :: created' } =
                  { txn with createdDirs := (txn.createdDirs ++ [d]) ++ created' } := by
                simp
              rw [this]
              exact hinv3
            · intro q hq
              have hqd : q ≠ d := fun he => hq (he ▸ List.mem_cons_self _ _)
              have hqr : q ∉ created' := fun hm => hq (List.mem_cons_of_mem _ hm)
              rw [hframe q hqr, look_fset_ne _ _ _ _ hqd]
            · intro q hq
              rcases List.mem_cons.mp hq with rfl | hq'
              · refine ⟨hfresh, ?_⟩
                rw [hframe q hdnotin, look_fset_self]
              · have hqd : q ≠ d := fun he => hdnotin (he ▸ hq')
                obtain ⟨h1, h2⟩ := hmem q hq'
                refine ⟨?_, h2⟩
                rw [look_fset_ne _ _ _ _ hqd] at h1
                exact h1
          | error e =>
            rw [hrec] at heq
            cases heq
            simp only at IH
            have h1 : eqv (fremove st3.fs d) (fremove (fset st.fs d (.dir mode)) d) :=
              fremove_congr (by rw [← hst2fs]; exact IH) d
            exact eqv_trans h1 (fremove_fset_dir_fresh hinv.wf hfresh hne)

theorem spec_trackedMkdirAll (env : Nat → Bool) (mode : Nat) {fs0 : FS} {txn : Txn}
    {p : Path} {st st' : St} {r : Except CErr (List Path)}
    (hinv : Inv fs0 st.fs txn)
    (heq : trackedMkdirAll env p mode st = (st', r)) :
    (match r with
     | .error _ => eqv st'.fs st.fs
     | .ok created =>
       Inv fs0 st'.fs { txn with createdDirs := txn.createdDirs ++ created } ∧
       (∀ q ∈ created,
         look st.fs q = none ∧ look st'.fs q = some (.dir mode) ∧ q <+: p ∧ q ≠ []) ∧
       (∀ q, q ∉ created → look st'.fs q = look st.fs q) ∧
       (p = [] ∨ ∃ m', look st'.fs p = some (.dir m'))) := by
  unfold trackedMkdirAll at heq
  cases hc : collectMissing st.fs p with
  | error e =>
    rw [hc] at heq
    cases heq
    exact fun q => rfl
  | ok missing =>
    rw [hc] at heq
    obtain ⟨hS1, hS2, hS3, hS4⟩ :=
      spec_collectMissing mode p.length p st.fs missing (Nat.le_refl _) hc
    have mk := spec_mkDirs env mode fs0 missing.reverse txn st st' r hS2 hinv heq
    cases r with
    | error e => exact mk
    | ok created =>
      simp only at mk
      obtain ⟨hcr, hinv', hframe, hmem⟩ := mk
      subst hcr
      refine ⟨hinv', ?_, hframe, ?_⟩
      · intro q hq
        have hq' : q ∈ missing := List.mem_reverse.mp hq
        obtain ⟨h1, h2⟩ := hmem q hq
        obtain ⟨h3, h4, _⟩ := hS1 q hq'
        exact ⟨h1, h2, h4, h3⟩
      · by_cases hp : p = []
        · exact Or.inl hp
        · cases hlook : look st.fs p with
          | none =>
            obtain ⟨rest, hrest⟩ := hS4 hp hlook
            have hpmem : p ∈ missing.reverse := by
              rw [hrest]
              exact List.mem_reverse.mpr (List.mem_cons_self _ _)
            exact Or.inr ⟨mode, (hmem p hpmem).2⟩
          | some e =>
            cases e with
            | dir m' =>
              have hpnot : p ∉ missing.reverse := by
                intro hm
                rw [(hS1 p (List.mem_reverse.mp hm)).2.2] at hlook
                cases hlook
              refine Or.inr ⟨m', ?_⟩
              rw [hframe p hpnot]
              exact hlook
            | file c' m' =>
              rw [collectMissing_eq hp, statP_eq_look hp, hlook] at hc
              cases hc

theorem trackedMkdirAll_noop (env : Nat → Bool) (mode : Nat) {p : Path} {st : St}
    (h : p = [] ∨ isDirAt st.fs p) : trackedMkdirAll env p mode st = (st, .ok []) := by
  unfold trackedMkdirAll
  by_cases hp : p = []
  · subst hp
    rw [collectMissing_nil]
    rfl
  · rcases h with he | ⟨m', hm'⟩
    · exact absurd he hp
    · rw [collectMissing_eq hp, statP_eq_look hp, hm']
      rfl

theorem spec_ensureDir (env : Nat → Bool) (mode : Nat) {fs0 : FS} {txn txn' : Txn}
    {p : Path} {st st' : St} {res : Option CErr}
    (hinv : Inv fs0 st.fs txn)
    (heq : ensureDir env p mode st txn = ((st', txn'), res)) :
    (match res with
     | some _ => txn' = txn ∧ eqv st'.fs st.fs
     | none =>
       Inv fs0 st'.fs txn' ∧
       txn'.createdFiles = txn.createdFiles ∧
       txn'.overwritten = txn.overwritten ∧
       ∃ created, txn' = { txn with createdDirs := txn.createdDirs ++ created } ∧
         (∀ q ∈ created,
           look st.fs q = none ∧ look st'.fs q = some (.dir mode) ∧ q <+: p ∧ q ≠ []) ∧
         (∀ q, q ∉ created → look st'.fs q = look st.fs q) ∧
         (p = [] ∨ ∃ m', look st'.fs p = some (.dir m'))) := by
  unfold ensureDir at heq
  cases ht : trackedMkdirAll env p mode st with
  | mk stt rr =>
    rw [ht] at heq
    have spec := spec_trackedMkdirAll env mode hinv ht
    cases rr with
    | ok created =>
      cases heq
      simp only at spec
      obtain ⟨hinv', hmem, hframe, hdir⟩ := spec
      exact ⟨hinv', rfl, rfl, created, rfl, hmem, hframe, hdir⟩
    | error e =>
      cases heq
      exact ⟨rfl, spec⟩

theorem concat_ne_nil {α : Type} (l : List α) (x : α) : l ++ [x] ≠ [] := by
  simp

theorem dropLast_concat' {α : Type} (l : List α) (x : α) : (l ++ [x]).dropLast = l := by
  rw [List.dropLast_append_cons]
  simp

/-- No missing parents are created when the destination parent already
exists as a directory: the `created` paths handed back by a successful
`ensureDir` must then be empty on a well-formed filesystem. -/
theorem created_nil_of_parent {fs : FS} (hWF : WF fs) {par : Path}
    (hpar : isDirAt fs par ∨ par = []) {created : List Path}
    (hmemc : ∀ q ∈ created, look fs q = none ∧ q <+: par ∧ q ≠ []) :
    created = [] := by
  rw [List.eq_nil_iff_forall_not_mem]
  intro q hq
  obtain ⟨hfresh, hpre, hne⟩ := hmemc q hq
  rcases hpar with hdir | hnil
  · by_cases hqp : q = par
    · rw [hqp] at hfresh
      rcases hdir with ⟨m', hm'⟩
      rw [hm'] at hfresh
      cases hfresh
    · rcases hWF par q (isDirAt_isSome hdir) hne hpre hqp with ⟨m', hm'⟩
      rw [hm'] at hfresh
      cases hfresh
  · rw [hnil] at hpre
    exact hne (List.prefix_nil.mp hpre)

theorem spec_copyFile (env : Nat → Bool) (overwrite : Bool) {fs0 : FS} {txn txn' : Txn}
    {dst : Path} {c : String} {m : Nat} {st st' : St} {res : Option CErr}
    (hinv : Inv fs0 st.fs txn)
    (heq : copyFile env overwrite dst c m st txn = ((st', txn'), res)) :
    (∀ e, res = some e → eqv (undoTxn txn' st'.fs) fs0) ∧
    (res = none →
      Inv fs0 st'.fs txn' ∧
      look st'.fs dst = some (.file c m) ∧
      ((isDirAt st.fs dst.dropLast ∨ dst.dropLast = []) →
        ∀ q, q ≠ dst → look st'.fs q = look st.fs q ∨
          (look st.fs q = none ∧ isFileAt st'.fs q))) := by
  unfold copyFile at heq
  rcases hens : ensureDir env (dst.dropLast) 0o755 st txn with ⟨⟨st1, txn1⟩, res0⟩
  rw [hens] at heq
  have spec1 := spec_ensureDir env 0o755 hinv hens
  cases res0 with
  | some e0 =>
    cases heq
    simp only at spec1
    obtain ⟨htxn, hfs⟩ := spec1
    subst htxn
    refine ⟨fun e he => ?_, fun h => Option.noConfusion h⟩
    exact eqv_trans (undoTxn_congr _ hfs) hinv.undo_eq
  | none =>
    dsimp only at heq
    simp only at spec1
    obtain ⟨hinv1, hfiles1, how1, created, htxn1, hmemc, hframe1, hdir1⟩ := spec1
    have hnoop : (isDirAt st.fs dst.dropLast ∨ dst.dropLast = []) →
        ∀ q, look st1.fs q = look st.fs q := by
      intro hpar q
      have hc0 : created = [] :=
        created_nil_of_parent hinv.wf
          (by rcases hpar with h | h; exact Or.inl h; exact Or.inr h)
          (fun q' hq' => ⟨(hmemc q' hq').1, (hmemc q' hq').2.2.1, (hmemc q' hq').2.2.2⟩)
      subst hc0
      exact hframe1 q (List.not_mem_nil q)
    cases hstat : statP st1.fs dst with
    | some e1 =>
      cases e1 with
      | dir m0 =>
        rw [hstat] at heq
        cases heq
        exact ⟨fun e he => hinv1.undo_eq, fun h => Option.noConfusion h⟩
      | file c0 m0 =>
        rw [hstat] at heq
        have hdstne : dst ≠ [] := by
          intro he
          rw [he] at hstat
          simp [statP] at hstat
        have hdst : look st1.fs dst = some (.file c0 m0) := by
          rw [← statP_eq_look hdstne]
          exact hstat
        cases hov : overwrite with
        | false =>
          rw [hov] at heq
          simp only [Bool.not_false, if_true] at heq
          cases heq
          exact ⟨fun e he => hinv1.undo_eq, fun h => Option.noConfusion h⟩
        | true =>
          rw [hov] at heq
          simp only [Bool.not_true, Bool.false_eq_true, if_false, ioStep] at heq
          by_cases hf1 : env st1.tick = true
          · rw [if_pos hf1] at heq
            cases heq
            exact ⟨fun e he => hinv1.undo_eq, fun h => Option.noConfusion h⟩
          · rw [if_neg hf1] at heq
            by_cases hf2 : env (st1.tick + 1) = true
            · rw [if_pos hf2] at heq
              cases heq
              exact ⟨fun e he => hinv1.undo_eq, fun h => Option.noConfusion h⟩
            · rw [if_neg hf2] at heq
              by_cases hbex : (statP st1.fs (dst.dropLast ++ [backupName st1.tmp])).isSome
              · rw [if_pos hbex] at heq
                cases heq
                exact ⟨fun e he => hinv1.undo_eq, fun h => Option.noConfusion h⟩
              · rw [if_neg hbex] at heq
                have hbne : dst.dropLast ++ [backupName st1.tmp] ≠ [] :=
                  concat_ne_nil _ _
                have hbfresh : look st1.fs (dst.dropLast ++ [backupName st1.tmp]) = none := by
                  rw [← statP_eq_look hbne]
                  exact Option.not_isSome_iff_eq_none.mp hbex
                have hancb : ∀ q, q ≠ [] →
                    q <+: (dst.dropLast ++ [backupName st1.tmp]) →
                    q ≠ (dst.dropLast ++ [backupName st1.tmp]) → isDirAt st1.fs q := by
                  refine anc_from_parent hinv1.wf ?_
                  rw [dropLast_concat']
                  rcases hdir1 with h | ⟨m', hm'⟩
                  · exact Or.inl h
                  · exact Or.inr ⟨m', hm'⟩
                by_cases hf3 : env (st1.tick + 1 + 1) = true
                · rw [if_pos hf3] at heq
                  cases heq
                  refine ⟨fun e he => ?_, fun h => Option.noConfusion h⟩
                  exact inv_owPartial hinv1 hdst hbfresh hbne
                · rw [if_neg hf3] at heq
                  cases heq
                  refine ⟨fun e he => Option.noConfusion he, fun _ => ?_⟩
                  have hinv' := @inv_overwrite _ _ _ _ _ _ c _ 0o600 m
                    hinv1 hdst hbfresh hbne hancb
                  have hdb : dst ≠ dst.dropLast ++ [backupName st1.tmp] :=
                    ne_of_isSome_fresh (by rw [hdst]; rfl) hbfresh
                  have hbd : dst.dropLast ++ [backupName st1.tmp] ≠ dst := Ne.symm hdb
                  refine ⟨hinv', look_fset_self _ _ _, ?_⟩
                  intro hpar q hq
                  by_cases hqb : q = dst.dropLast ++ [backupName st1.tmp]
                  · refine Or.inr ⟨?_, ?_⟩
                    · rw [← hnoop hpar q, hqb]
                      exact hbfresh
                    · refine ⟨c0, 0o600, ?_⟩
                      rw [hqb, look_fset_ne _ _ _ _ hbd, look_fset_self]
                  · refine Or.inl ?_
                    rw [look_fset_ne _ _ _ _ hq, look_fset_ne _ _ _ _ hqb]
                    exact hnoop hpar q
    | none =>
      rw [hstat] at heq
      simp only [ioStep] at heq
      have hdstne : dst ≠ [] := by
        intro he
        rw [he] at hstat
        simp [statP] at hstat
      have hfresh1 : look st1.fs dst = none := by
        rw [← statP_eq_look hdstne]
        exact hstat
      by_cases hf1 : env st1.tick = true
      · rw [if_pos hf1] at heq
        cases heq
        exact ⟨fun e he => hinv1.undo_eq, fun h => Option.noConfusion h⟩
      · rw [if_neg hf1] at heq
        by_cases hf2 : env (st1.tick + 1) = true
        · rw [if_pos hf2] at heq
          cases heq
          refine ⟨fun e he => ?_, fun h => Option.noConfusion h⟩
          exact inv_createRecordOnly hinv1 hfresh1
        · rw [if_neg hf2] at heq
          cases heq
          refine ⟨fun e he => Option.noConfusion he, fun _ => ?_⟩
          have hanc : ∀ q, q ≠ [] → q <+: dst → q ≠ dst → isDirAt st1.fs q := by
            refine anc_from_parent hinv1.wf ?_
            rcases hdir1 with h | ⟨m', hm'⟩
            · exact Or.inl h
            · exact Or.inr ⟨m', hm'⟩
          have hinv' := @inv_createFile _ _ _ _ c m hinv1 hfresh1 hanc
          refine ⟨hinv', look_fset_self _ _ _, ?_⟩
          intro hpar q hq
          refine Or.inl ?_
          rw [look_fset_ne _ _ _ _ hq]
          exact hnoop hpar q

theorem spec_copyItem (env : Nat → Bool) (overwrite : Bool) {fs0 : FS} {txn txn' : Txn}
    {dstDir rel : Path} {it : Item} {st st' : St} {res : Option CErr}
    (hinv : Inv fs0 st.fs txn)
    (heq : copyItem env overwrite dstDir rel it st txn = ((st', txn'), res)) :
    (∀ e, res = some e → eqv (undoTxn txn' st'.fs) fs0) ∧
    (res = none → Inv fs0 st'.fs txn') := by
  cases it with
  | fileI c m =>
    have spec := spec_copyFile env overwrite hinv heq
    exact ⟨spec.1, fun h => (spec.2 h).1⟩
  | dirI m =>
    have spec := spec_ensureDir env m hinv heq
    constructor
    · intro e he
      subst he
      simp only at spec
      obtain ⟨htxn, hfs⟩ := spec
      subst htxn
      exact eqv_trans (undoTxn_congr _ hfs) hinv.undo_eq
    · intro h
      subst h
      simp only at spec
      exact spec.1

theorem spec_copyDirContents (env : Nat → Bool) (overwrite : Bool) (dstDir : Path) :
    ∀ (items : List (Path × Item)) {fs0 : FS} {txn txn' : Txn} {st st' : St}
      {res : Option CErr},
      Inv fs0 st.fs txn →
      copyDirContents env overwrite dstDir items st txn = ((st', txn'), res) →
      (∀ e, res = some e → eqv (undoTxn txn' st'.fs) fs0) ∧
      (res = none → Inv fs0 st'.fs txn') := by
  intro items
  induction items with
  | nil =>
    intro fs0 txn txn' st st' res hinv heq
    simp only [copyDirContents] at heq
    cases heq
    exact ⟨fun e he => Option.noConfusion he, fun _ => hinv⟩
  | cons b rest ih =>
    intro fs0 txn txn' st st' res hinv heq
    obtain ⟨rel, it⟩ := b
    rw [copyDirContents] at heq
    rcases hci : copyItem env overwrite dstDir rel it st txn with ⟨⟨st2, txn2⟩, res2⟩
    rw [hci] at heq
    have spec := spec_copyItem env overwrite hinv hci
    cases res2 with
    | some e2 =>
      dsimp only at heq
      cases heq
      exact ⟨fun e he => spec.1 e2 rfl, fun h => Option.noConfusion h⟩
    | none =>
      dsimp only at heq
      exact ih (spec.2 rfl) heq

theorem spec_copyToDir (env : Nat → Bool) (overwrite : Bool) (src : Option Src)
    (dstDir : Path) {st st' : St} {r : Except CErr Txn}
    (hWF : WF st.fs)
    (heq : copyToDir env overwrite src dstDir st = (st', r)) :
    (∀ e, r = .error e → eqv st'.fs st.fs) ∧
    (∀ txn, r = .ok txn → Inv st.fs st'.fs txn) := by
  unfold copyToDir at heq
  cases src with
  | none =>
    cases heq
    exact ⟨fun e _ => eqv_refl _, fun txn h => Except.noConfusion h⟩
  | some s =>
    rcases htr : trackedMkdirAll env dstDir 0o755 st with ⟨st1, r1⟩
    rw [htr] at heq
    have inv0 : Inv st.fs st.fs ⟨[], [], []⟩ := inv_init hWF
    have spec0 := @spec_trackedMkdirAll env 0o755 _ ⟨[], [], []⟩ _ _ _ _ inv0 htr
    cases r1 with
    | error e1 =>
      cases heq
      exact ⟨fun e _ => spec0, fun txn h => Except.noConfusion h⟩
    | ok created =>
      dsimp only at heq
      simp only at spec0
      obtain ⟨hinv1, hmemc, hframe1, hdir1⟩ := spec0
      have hinv1' : Inv st.fs st1.fs ({ createdDirs := created } : Txn) := by
        have : ({ createdDirs := created } : Txn) =
            { (⟨[], [], []⟩ : Txn) with
              createdDirs := (⟨[], [], []⟩ : Txn).createdDirs ++ created } := by
          simp
        rw [this]
        exact hinv1
      cases hstatd : statP st1.fs dstDir with
      | some e1 =>
        cases e1 with
        | dir md =>
          rw [hstatd] at heq
          cases s with
          | dirS walk =>
            dsimp only at heq
            rcases hrun : copyDirContents env overwrite dstDir walk st1
                ({ createdDirs := created } : Txn) with ⟨⟨st2, txn2⟩, res2⟩
            rw [hrun] at heq
            have spec2 := spec_copyDirContents env overwrite dstDir walk hinv1' hrun
            cases res2 with
            | some e2 =>
              dsimp only at heq
              cases heq
              exact ⟨fun e _ => spec2.1 e2 rfl, fun txn h => Except.noConfusion h⟩
            | none =>
              dsimp only at heq
              cases heq
              refine ⟨fun e h => Except.noConfusion h, fun txn h => ?_⟩
              cases h
              exact spec2.2 rfl
          | fileS base c m =>
            dsimp only at heq
            rcases hrun : copyFile env overwrite (dstDir ++ [base]) c m st1
                ({ createdDirs := created } : Txn) with ⟨⟨st2, txn2⟩, res2⟩
            rw [hrun] at heq
            have spec2 := spec_copyFile env overwrite hinv1' hrun
            cases res2 with
            | some e2 =>
              dsimp only at heq
              cases heq
              exact ⟨fun e _ => spec2.1 e2 rfl, fun txn h => Except.noConfusion h⟩
            | none =>
              dsimp only at heq
              cases heq
              refine ⟨fun e h => Except.noConfusion h, fun txn h => ?_⟩
              cases h
              exact (spec2.2 rfl).1
        | file c0 m0 =>
          rw [hstatd] at heq
          dsimp only at heq
          cases heq
          exact ⟨fun e _ => hinv1'.undo_eq, fun txn h => Except.noConfusion h⟩
      | none =>
        rw [hstatd] at heq
        dsimp only at heq
        cases heq
        exact ⟨fun e _ => hinv1'.undo_eq, fun txn h => Except.noConfusion h⟩

theorem WF_of_WFB {fs : FS} (h : WFB fs = true) : WF fs := by
  intro p q hsome hqne hpre hne
  rcases Option.isSome_iff_exists.mp hsome with ⟨e, he⟩
  have hmem := mem_of_look he
  have hall := List.all_eq_true.mp h ⟨p, e⟩ hmem
  have hq : q ∈ chain p.dropLast :=
    mem_chain_iff.mpr ⟨hqne, prefix_dropLast hpre hne⟩
  have hb := List.all_eq_true.mp hall q hq
  unfold isDirB at hb
  cases hl : look fs q with
  | none => rw [hl] at hb; cases hb
  | some e' =>
    cases e' with
    | file c' m' => rw [hl] at hb; cases hb
    | dir m' => exact ⟨m', hl⟩

theorem invoke_used {u : Undoer} (h : u.used = true) (fs : FS) :
    Undoer.invoke u fs = (u, fs) := by
  unfold Undoer.invoke
  rw [h]
  simp

theorem invokeN_used {u : Undoer} (h : u.used = true) :
    ∀ n (fs : FS), invokeN n (u, fs) = (u, fs) := by
  intro n
  induction n with
  | zero => intro fs; rfl
  | succ n ih =>
    intro fs
    rw [invokeN, invoke_used h]
    exact ih fs

/-- C1: if `CopyToDir` returns an error — a destination path component that
is not a directory, an existing destination file with `overwrite=false`,
or an injected I/O failure at any step — then every step performed so far
has been reversed before returning, and the destination filesystem is
extensionally identical to its pre-call state. -/
theorem copy_error_restores_destination (env : Nat → Bool) (overwrite : Bool)
    (src : Option Src) (dstDir : Path) (st st' : St) (e : CErr)
    (hWF : WF st.fs)
    (heq : copyToDir env overwrite src dstDir st = (st', .error e)) :
    eqv st'.fs st.fs :=
  (spec_copyToDir env overwrite src dstDir hWF heq).1 e rfl

theorem copy_error_restores_destination_witness :
    eqv (copyToDir exEnv false (some (.dirS exWalk)) ["w"] exSt).1.fs exSt.fs :=
  copy_error_restores_destination exEnv false (some (.dirS exWalk)) ["w"] exSt
    (copyToDir exEnv false (some (.dirS exWalk)) ["w"] exSt).1
    (.alreadyExists ["w", "old.txt"]) (WF_of_WFB (by decide)) (by decide)

/-- C2: after a successful `CopyToDir` with `overwrite=true` followed by one
invocation of the returned reversal closure, the destination filesystem is
extensionally identical to its pre-call state: every file that existed
before has its content and permission mode restored and its backup
deleted, every file that did not exist before is absent, and every
directory created by the call is removed. -/
theorem copy_reversal_restores_destination (env : Nat → Bool) (overwrite : Bool)
    (src : Option Src) (dstDir : Path) (st st' : St) (txn : Txn)
    (u' : Undoer) (fs'' : FS)
    (hWF : WF st.fs)
    (heq : copyToDir env overwrite src dstDir st = (st', .ok txn))
    (hinvk : Undoer.invoke ⟨txn, false⟩ st'.fs = (u', fs'')) :
    eqv fs'' st.fs := by
  have hInv := (spec_copyToDir env overwrite src dstDir hWF heq).2 txn rfl
  have hred : Undoer.invoke ⟨txn, false⟩ st'.fs = (⟨txn, true⟩, undoTxn txn st'.fs) := by
    unfold Undoer.invoke
    simp
  rw [hred] at hinvk
  cases hinvk
  exact hInv.undo_eq

theorem copy_reversal_restores_destination_witness :
    eqv (Undoer.invoke ⟨exTxn, false⟩
        (copyToDir exEnv true (some (.dirS exWalk)) ["w"] exSt).1.fs).2 exSt.fs :=
  copy_reversal_restores_destination exEnv true (some (.dirS exWalk)) ["w"] exSt
    (copyToDir exEnv true (some (.dirS exWalk)) ["w"] exSt).1 exTxn
    (Undoer.invoke ⟨exTxn, false⟩
      (copyToDir exEnv true (some (.dirS exWalk)) ["w"] exSt).1.fs).1
    (Undoer.invoke ⟨exTxn, false⟩
      (copyToDir exEnv true (some (.dirS exWalk)) ["w"] exSt).1.fs).2
    (WF_of_WFB (by decide)) (by decide) rfl

/-- C7: the reversal closure returned by a successful `CopyToDir` is
idempotent: invoking it `n ≥ 1` times has the same filesystem effect as
invoking it once, because the `sync.Once` guard makes every invocation
after the first a no-op. -/
theorem copy_reversal_idempotent (env : Nat → Bool) (overwrite : Bool)
    (src : Option Src) (dstDir : Path) (st st' : St) (txn : Txn)
    (heq : copyToDir env overwrite src dstDir st = (st', .ok txn)) :
    ∀ (fs : FS) (n : Nat), 1 ≤ n →
      (invokeN n (⟨txn, false⟩, fs)).2 = (invokeN 1 (⟨txn, false⟩, fs)).2 := by
  intro fs n hn
  cases n with
  | zero => omega
  | succ k =>
    have h1 : Undoer.invoke ⟨txn, false⟩ fs = (⟨txn, true⟩, undoTxn txn fs) := by
      unfold Undoer.invoke
      simp
    show (invokeN (k + 1) (⟨txn, false⟩, fs)).2 = _
    rw [invokeN, invokeN, h1, invokeN_used rfl k]
    rfl

theorem copy_reversal_idempotent_witness :
    (invokeN 2 ((⟨exTxn, false⟩ : Undoer), exFS)).2 =
      (invokeN 1 ((⟨exTxn, false⟩ : Undoer), exFS)).2 :=
  copy_reversal_idempotent exEnv true (some (.dirS exWalk)) ["w"] exSt
    (copyToDir exEnv true (some (.dirS exWalk)) ["w"] exSt).1 exTxn
    (by decide) exFS 2 (by decide)

theorem walkFromB_rel_ne {seen : List Path} :
    ∀ {items : List (Path × Item)}, walkFromB seen items = true →
      ∀ b ∈ items, b.1 ≠ [] := by
  intro items
  induction items generalizing seen with
  | nil => intro _ b hb; cases hb
  | cons b0 rest ih =>
    intro h b hb
    obtain ⟨rel, it⟩ := b0
    rw [walkFromB.eq_def] at h
    simp only [Bool.and_eq_true] at h
    rcases List.mem_cons.mp hb with rfl | hb'
    · simpa [List.isEmpty_iff] using h.1.1
    · cases it with
      | dirI m => exact ih h.2 b hb'
      | fileI c m => exact ih h.2 b hb'

theorem dropLast_append_ne {α : Type} (l1 : List α) {l2 : List α} (h : l2 ≠ []) :
    (l1 ++ l2).dropLast = l1 ++ l2.dropLast := by
  rcases List.exists_cons_of_ne_nil h with ⟨b, t, rfl⟩
  exact List.dropLast_append_cons

theorem append_target_ne {dstDir rel : Path} (h : rel ≠ []) : dstDir ++ rel ≠ dstDir := by
  intro he
  have : dstDir ++ rel = dstDir ++ [] := by simpa using he
  exact h (List.append_cancel_left this)

theorem prefix_ne_target {q dstDir rel : Path} (hq : q <+: dstDir) (h : rel ≠ []) :
    q ≠ dstDir ++ rel := by
  intro he
  have h1 : q.length ≤ dstDir.length := hq.length_le
  have h2 : (dstDir ++ rel).length = dstDir.length + rel.length := by
    simp
  have h3 : 0 < rel.length := List.length_pos.mpr h
  rw [he, h2] at h1
  omega

theorem MPost_frame {fs1 fsA fsB : FS} {t : Path} {it : Item}
    (h : MPost fs1 fsA t it) (heq : look fsB t = look fsA t) : MPost fs1 fsB t it := by
  cases it with
  | fileI c m =>
    show look fsB t = _
    rw [heq]
    exact h
  | dirI m =>
    rcases h with ⟨m', hm', hcl⟩
    exact ⟨m', by rw [heq]; exact hm', hcl⟩

theorem MPost_isSome {fs1 fs : FS} {t : Path} {it : Item}
    (h : MPost fs1 fs t it) : (look fs t).isSome := by
  cases it with
  | fileI c m => rw [show look fs t = _ from h]; rfl
  | dirI m =>
    rcases h with ⟨m', hm', _⟩
    rw [hm']; rfl

theorem walk_posts (env : Nat → Bool) (ow : Bool) (dstDir : Path) (fs1 : FS) :
    ∀ (items S : List (Path × Item)) (seen : List Path)
      (fs0 : FS) (st st' : St) (txn txn' : Txn),
      copyDirContents env ow dstDir items st txn = ((st', txn'), none) →
      Inv fs0 st.fs txn →
      walkFromB seen items = true →
      (S.map Prod.fst ++ items.map Prod.fst).Nodup →
      (∀ d ∈ seen, ∃ mm, (d, Item.dirI mm) ∈ S) →
      (∀ b ∈ S, MPost fs1 st.fs (dstDir ++ b.1) b.2) →
      (∀ q, (∀ b ∈ S, dstDir ++ b.1 ≠ q) →
        look st.fs q = look fs1 q ∨ (look fs1 q = none ∧ isFileAt st.fs q)) →
      (dstDir = [] ∨ isDirAt st.fs dstDir) →
      ∀ b ∈ S ++ items, MPost fs1 st'.fs (dstDir ++ b.1) b.2 := by
  intro items
  induction items with
  | nil =>
    intro S seen fs0 st st' txn txn' heq hinv hwf hnd hseen hposts hothers hroot b hb
    simp only [copyDirContents] at heq
    cases heq
    rw [List.append_nil] at hb
    exact hposts b hb
  | cons b0 rest ih =>
    intro S seen fs0 st st' txn txn' heq hinv hwf hnd hseen hposts hothers hroot
    obtain ⟨rel, it⟩ := b0
    rw [walkFromB.eq_def] at hwf
    simp only [Bool.and_eq_true] at hwf
    have hrelne : rel ≠ [] := by simpa [List.isEmpty_iff] using hwf.1.1
    have hparents : ∀ q ∈ chain rel.dropLast, q ∈ seen := by
      intro q hq
      have := List.all_eq_true.mp hwf.1.2 q hq
      simpa using this
    have hrelnotS : rel ∉ S.map Prod.fst := by
      have hdisj := List.disjoint_of_nodup_append hnd
      intro hmem
      exact hdisj hmem (List.mem_map_of_mem Prod.fst (List.mem_cons_self _ _))
    have htne : ∀ b ∈ S, dstDir ++ b.1 ≠ dstDir ++ rel := by
      intro b hb he
      have : b.1 = rel := List.append_cancel_left he
      exact hrelnotS (this ▸ List.mem_map_of_mem Prod.fst hb)
    have hparent_dir : isDirAt st.fs (dstDir ++ rel).dropLast ∨
        (dstDir ++ rel).dropLast = [] := by
      have hdl : (dstDir ++ rel).dropLast = dstDir ++ rel.dropLast :=
        dropLast_append_ne dstDir hrelne
      by_cases hrd : rel.dropLast = []
      · rw [hdl, hrd, List.append_nil]
        rcases hroot with h | h
        · exact Or.inr h
        · exact Or.inl h
      · have hqchain : rel.dropLast ∈ chain rel.dropLast :=
          mem_chain_iff.mpr ⟨hrd, List.prefix_refl _⟩
        obtain ⟨mm, hmem⟩ := hseen rel.dropLast (hparents _ hqchain)
        have hpost : MPost fs1 st.fs (dstDir ++ rel.dropLast) (.dirI mm) := hposts _ hmem
        rcases hpost with ⟨m', hm', _⟩
        rw [hdl]
        exact Or.inl ⟨m', hm'⟩
    rw [copyDirContents] at heq
    rcases hci : copyItem env ow dstDir rel it st txn with ⟨⟨st2, txn2⟩, res2⟩
    rw [hci] at heq
    cases res2 with
    | some e2 =>
      dsimp only at heq
      cases heq
    | none =>
      dsimp only at heq
      cases it with
      | fileI c m =>
        have hspec := spec_copyFile env ow hinv hci
        rcases hspec.2 rfl with ⟨hinv2, hlook2, hframe⟩
        have hframe' := hframe hparent_dir
        have hS'posts : ∀ b ∈ S ++ [(rel, Item.fileI c m)],
            MPost fs1 st2.fs (dstDir ++ b.1) b.2 := by
          intro b hb
          rcases List.mem_append.mp hb with hb' | hb'
          · have hne := htne b hb'
            rcases hframe' (dstDir ++ b.1) hne with hunch | ⟨hnone, _⟩
            · exact MPost_frame (hposts b hb') hunch
            · exact absurd (MPost_isSome (hposts b hb'))
                (by rw [hnone]; simp)
          · rcases List.mem_singleton.mp hb' with rfl
            exact hlook2
        have hS'others : ∀ q, (∀ b ∈ S ++ [(rel, Item.fileI c m)], dstDir ++ b.1 ≠ q) →
            look st2.fs q = look fs1 q ∨ (look fs1 q = none ∧ isFileAt st2.fs q) := by
          intro q hq
          have hqt : dstDir ++ rel ≠ q :=
            hq (rel, Item.fileI c m) (List.mem_append_right _ (List.mem_singleton.mpr rfl))
          have hqS : ∀ b ∈ S, dstDir ++ b.1 ≠ q := fun b hb =>
            hq b (List.mem_append_left _ hb)
          rcases hframe' q (fun he => hqt he.symm) with hunch | ⟨hnone, hfile⟩
          · rcases hothers q hqS with h | ⟨h1, h2⟩
            · exact Or.inl (hunch.trans h)
            · refine Or.inr ⟨h1, ?_⟩
              rcases h2 with ⟨c', m', hm'⟩
              exact ⟨c', m', by rw [hunch]; exact hm'⟩
          · rcases hothers q hqS with h | ⟨h1, _⟩
            · exact Or.inr ⟨by rw [← h]; exact hnone, hfile⟩
            · exact Or.inr ⟨h1, hfile⟩
        have hroot2 : dstDir = [] ∨ isDirAt st2.fs dstDir := by
          rcases hroot with h | ⟨mr, hmr⟩
          · exact Or.inl h
          · have hne : dstDir ≠ dstDir ++ rel := Ne.symm (append_target_ne hrelne)
            rcases hframe' dstDir hne with hunch | ⟨hnone, _⟩
            · exact Or.inr ⟨mr, by rw [hunch]; exact hmr⟩
            · rw [hnone] at hmr
              cases hmr
        have hnd2 : ((S ++ [(rel, Item.fileI c m)]).map Prod.fst ++
            rest.map Prod.fst).Nodup := by
          simpa [List.append_assoc] using hnd
        have hseen2 : ∀ d ∈ seen, ∃ mm, (d, Item.dirI mm) ∈ S ++ [(rel, Item.fileI c m)] := by
          intro d hd
          obtain ⟨mm, hmm⟩ := hseen d hd
          exact ⟨mm, List.mem_append_left _ hmm⟩
        have := ih (S ++ [(rel, Item.fileI c m)]) seen fs0 st2 st' txn2 txn'
          heq hinv2 hwf.2 hnd2 hseen2 hS'posts hS'others hroot2
        intro b hb
        refine this b ?_
        rw [List.append_assoc]
        simpa using hb
      | dirI m =>
        have hspec := spec_ensureDir env m hinv hci
        simp only at hspec
        obtain ⟨hinv2, _, _, created, htxn2, hmemc, hframeE, hdirE⟩ := hspec
        have htargetne : dstDir ++ rel ≠ [] := by
          simp [hrelne]
        have hanc_all : ∀ q, q ≠ [] → q <+: (dstDir ++ rel) → q ≠ dstDir ++ rel →
            isDirAt st.fs q := by
          refine anc_from_parent hinv.wf ?_
          rcases hparent_dir with h | h
          · exact Or.inr h
          · exact Or.inl h
        have hsub : ∀ q ∈ created, q = dstDir ++ rel := by
          intro q hq
          obtain ⟨hfresh, _, hpre, hne⟩ := hmemc q hq
          by_contra hqt
          rcases hanc_all q hne hpre hqt with ⟨m', hm'⟩
          rw [hm'] at hfresh
          cases hfresh
        have hframe2 : ∀ q, q ≠ dstDir ++ rel → look st2.fs q = look st.fs q := by
          intro q hq
          refine hframeE q ?_
          intro hmem
          exact hq (hsub q hmem)
        have hpostnew : MPost fs1 st2.fs (dstDir ++ rel) (Item.dirI m) := by
          rcases hdirE with htnil | ⟨m', hm'⟩
          · exact absurd htnil htargetne
          · refine ⟨m', hm', ?_⟩
            intro hf1
            by_cases hmemt : (dstDir ++ rel) ∈ created
            · have h2 := (hmemc _ hmemt).2.1
              rw [hm'] at h2
              cases h2
              rfl
            · have hunch : look st2.fs (dstDir ++ rel) = look st.fs (dstDir ++ rel) := by
                refine hframeE _ ?_
                exact hmemt
              rw [hunch] at hm'
              rcases hothers (dstDir ++ rel) htne with h | ⟨h1, h2⟩
              · rw [hm', hf1] at h
                cases h
              · rcases h2 with ⟨c', m'', hm''⟩
                rw [hm'] at hm''
                cases hm''
        have hS'posts : ∀ b ∈ S ++ [(rel, Item.dirI m)],
            MPost fs1 st2.fs (dstDir ++ b.1) b.2 := by
          intro b hb
          rcases List.mem_append.mp hb with hb' | hb'
          · exact MPost_frame (hposts b hb') (hframe2 _ (htne b hb'))
          · rcases List.mem_singleton.mp hb' with rfl
            exact hpostnew
        have hS'others : ∀ q, (∀ b ∈ S ++ [(rel, Item.dirI m)], dstDir ++ b.1 ≠ q) →
            look st2.fs q = look fs1 q ∨ (look fs1 q = none ∧ isFileAt st2.fs q) := by
          intro q hq
          have hqt : dstDir ++ rel ≠ q :=
            hq (rel, Item.dirI m) (List.mem_append_right _ (List.mem_singleton.mpr rfl))
          have hqS : ∀ b ∈ S, dstDir ++ b.1 ≠ q := fun b hb =>
            hq b (List.mem_append_left _ hb)
          have hunch := hframe2 q (fun he => hqt he.symm)
          rcases hothers q hqS with h | ⟨h1, h2⟩
          · exact Or.inl (hunch.trans h)
          · refine Or.inr ⟨h1, ?_⟩
            rcases h2 with ⟨c', m', hm'⟩
            exact ⟨c', m', by rw [hunch]; exact hm'⟩
        have hroot2 : dstDir = [] ∨ isDirAt st2.fs dstDir := by
          rcases hroot with h | ⟨mr, hmr⟩
          · exact Or.inl h
          · have hne : dstDir ≠ dstDir ++ rel := Ne.symm (append_target_ne hrelne)
            exact Or.inr ⟨mr, by rw [hframe2 dstDir hne]; exact hmr⟩
        have hnd2 : ((S ++ [(rel, Item.dirI m)]).map Prod.fst ++
            rest.map Prod.fst).Nodup := by
          simpa [List.append_assoc] using hnd
        have hseen2 : ∀ d ∈ seen ++ [rel], ∃ mm, (d, Item.dirI mm) ∈ S ++ [(rel, Item.dirI m)] := by
          intro d hd
          rcases List.mem_append.mp hd with hd' | hd'
          · obtain ⟨mm, hmm⟩ := hseen d hd'
            exact ⟨mm, List.mem_append_left _ hmm⟩
          · rcases List.mem_singleton.mp hd' with rfl
            exact ⟨m, List.mem_append_right _ (List.mem_singleton.mpr rfl)⟩
        have := ih (S ++ [(rel, Item.dirI m)]) (seen ++ [rel]) fs0 st2 st' txn2 txn'
          heq hinv2 hwf.2 hnd2 hseen2 hS'posts hS'others hroot2
        intro b hb
        refine this b ?_
        rw [List.append_assoc]
        simpa using hb

/-- C8 (amended): for every successful `CopyToDir` whose source is a
directory, each file entry is copied preserving relative structure and
file mode bits; each directory entry exists at its relative destination
afterwards, and every directory the call created inside the destination
carries the corresponding source directory's permission bits — not 0755
(0755 is used only for the destination root path components). -/
theorem copy_dir_entries_modes (env : Nat → Bool) (ow : Bool)
    (walk : List (Path × Item)) (dstDir : Path) (st st' : St) (txn : Txn)
    (hWF : WF st.fs) (hwalk : WalkOK walk)
    (heq : copyToDir env ow (some (.dirS walk)) dstDir st = (st', .ok txn)) :
    ∀ rel it, (rel, it) ∈ walk →
      (∀ c m, it = .fileI c m → look st'.fs (dstDir ++ rel) = some (.file c m)) ∧
      (∀ m, it = .dirI m → ∃ m', look st'.fs (dstDir ++ rel) = some (.dir m') ∧
        (look st.fs (dstDir ++ rel) = none → m' = m)) := by
  unfold copyToDir at heq
  rcases htr : trackedMkdirAll env dstDir 0o755 st with ⟨st1, r1⟩
  rw [htr] at heq
  have inv0 : Inv st.fs st.fs ⟨[], [], []⟩ := inv_init hWF
  have spec0 := @spec_trackedMkdirAll env 0o755 _ ⟨[], [], []⟩ _ _ _ _ inv0 htr
  cases r1 with
  | error e1 => cases heq
  | ok created₀ =>
    dsimp only at heq
    simp only at spec0
    obtain ⟨hinv1, hmemc0, hframe0, hdir0⟩ := spec0
    have hinv1' : Inv st.fs st1.fs ({ createdDirs := created₀ } : Txn) := by
      have : ({ createdDirs := created₀ } : Txn) =
          { (⟨[], [], []⟩ : Txn) with
            createdDirs := (⟨[], [], []⟩ : Txn).createdDirs ++ created₀ } := by
        simp
      rw [this]
      exact hinv1
    cases hstatd : statP st1.fs dstDir with
    | some e1 =>
      cases e1 with
      | dir md =>
        rw [hstatd] at heq
        dsimp only at heq
        rcases hrun : copyDirContents env ow dstDir walk st1
            ({ createdDirs := created₀ } : Txn) with ⟨⟨st2, txn2⟩, res2⟩
        rw [hrun] at heq
        cases res2 with
        | some e2 =>
          dsimp only at heq
          cases heq
        | none =>
          dsimp only at heq
          cases heq
          have hroot : dstDir = [] ∨ isDirAt st1.fs dstDir := hdir0
          have hposts := walk_posts env ow dstDir st1.fs walk [] [] st.fs st1 st'
            ({ createdDirs := created₀ } : Txn) txn hrun hinv1' hwalk.1
            (by simpa using hwalk.2)
            (fun d hd => absurd hd (List.not_mem_nil d))
            (fun b hb => absurd hb (List.not_mem_nil b))
            (fun q _ => Or.inl rfl) hroot
          intro rel it hb
          have hrelne : rel ≠ [] := walkFromB_rel_ne hwalk.1 (rel, it) hb
          have hpost : MPost st1.fs st'.fs (dstDir ++ rel) it := by
            have := hposts (rel, it) (by simpa using hb)
            exact this
          have hbridge : look st1.fs (dstDir ++ rel) = look st.fs (dstDir ++ rel) := by
            refine hframe0 _ ?_
            intro hmem
            exact prefix_ne_target (hmemc0 _ hmem).2.2.1 hrelne rfl
          constructor
          · intro c m hit
            subst hit
            exact hpost
          · intro m hit
            subst hit
            rcases hpost with ⟨m', hm', hcl⟩
            refine ⟨m', hm', ?_⟩
            intro h0
            exact hcl (by rw [hbridge]; exact h0)
      | file c0 m0 =>
        rw [hstatd] at heq
        dsimp only at heq
        cases heq
    | none =>
      rw [hstatd] at heq
      dsimp only at heq
      cases heq

/-- C8 counterexample: a successful copy of a source directory whose
subdirectory has permission bits 0700 creates that directory in the
destination with mode 0700, not 0755, refuting the claim that directories
are created with mode 0755 regardless of the source directory's mode. -/
theorem copy_dir_mode_counterexample :
    (copyToDir exEnv true (some (.dirS exWalk)) ["w"] exSt).2 = .ok exTxn ∧
    look exSt.fs ["w", "d"] = none ∧
    look (copyToDir exEnv true (some (.dirS exWalk)) ["w"] exSt).1.fs ["w", "d"] =
      some (.dir 0o700) ∧
    (0o700 : Nat) ≠ 0o755 :=
  ⟨by decide, by decide, by decide, by decide⟩

theorem copy_dir_entries_modes_witness :
    ∃ m', look (copyToDir exEnv true (some (.dirS exWalk)) ["w"] exSt).1.fs
        (["w"] ++ ["d"]) = some (.dir m') ∧
      (look exSt.fs (["w"] ++ ["d"]) = none → m' = 0o700) :=
  (copy_dir_entries_modes exEnv true exWalk ["w"] exSt
      (copyToDir exEnv true (some (.dirS exWalk)) ["w"] exSt).1 exTxn
      (WF_of_WFB (by decide)) ⟨by decide, by decide⟩ (by decide)
      ["d"] (.dirI 0o700) (by decide)).2 0o700 rfl

theorem charsLe_trans :
    ∀ a b c, charsLe a b = true → charsLe b c = true → charsLe a c = true
  | [], _, _, _, _ => rfl
  | _ :: _, [], _, h1, _ => by simp [charsLe] at h1
  | _ :: _, _ :: _, [], _, h2 => by simp [charsLe] at h2
  | a :: as, b :: bs, c :: cs, h1, h2 => by
    rw [charsLe] at h1 h2 ⊢
    by_cases hab : a.toNat < b.toNat
    · by_cases hbc : b.toNat < c.toNat
      · rw [if_pos (hab.trans hbc)]
      · rw [if_neg hbc] at h2
        by_cases hcb : c.toNat < b.toNat
        · rw [if_pos hcb] at h2; exact absurd h2 (by simp)
        · rw [if_pos (show a.toNat < c.toNat by omega)]
    · rw [if_neg hab] at h1
      by_cases hba : b.toNat < a.toNat
      · rw [if_pos hba] at h1; exact absurd h1 (by simp)
      · rw [if_neg hba] at h1
        by_cases hbc : b.toNat < c.toNat
        · rw [if_pos (show a.toNat < c.toNat by omega)]
        · rw [if_neg hbc] at h2
          by_cases hcb : c.toNat < b.toNat
          · rw [if_pos hcb] at h2; exact absurd h2 (by simp)
          · rw [if_neg hcb] at h2
            rw [if_neg (show ¬ a.toNat < c.toNat by omega),
              if_neg (show ¬ c.toNat < a.toNat by omega)]
            exact charsLe_trans as bs cs h1 h2

theorem charsLe_total : ∀ a b, charsLe a b = true ∨ charsLe b a = true
  | [], _ => .inl rfl
  | _ :: _, [] => .inr rfl
  | a :: as, b :: bs => by
    rcases lt_trichotomy a.toNat b.toNat with h | h | h
    · left; simp [charsLe, h]
    · have h1 : ¬ a.toNat < b.toNat := by omega
      have h2 : ¬ b.toNat < a.toNat := by omega
      rcases charsLe_total as bs with hc | hc
      · left; simp [charsLe, h1, h2, hc]
      · right; simp [charsLe, h1, h2, hc]
    · right; simp [charsLe, h]

theorem insertSorted_perm (x : String) : ∀ l, (insertSorted x l).Perm (x :: l)
  | [] => .refl _
  | y :: ys => by
    rw [insertSorted]
    by_cases h : strLeb x y = true
    · rw [if_pos h]
    · rw [if_neg h]
      exact ((insertSorted_perm x ys).cons y).trans (List.Perm.swap x y ys)

theorem sortStrings_perm : ∀ l, (sortStrings l).Perm l
  | [] => .refl _
  | x :: xs => (insertSorted_perm x (sortStrings xs)).trans ((sortStrings_perm xs).cons x)

theorem mem_sortStrings {a : String} {l : List String} :
    a ∈ sortStrings l ↔ a ∈ l :=
  (sortStrings_perm l).mem_iff

theorem sorted_insertSorted (x : String) :
    ∀ l, List.Pairwise (fun a b => strLeb a b = true) l →
      List.Pairwise (fun a b => strLeb a b = true) (insertSorted x l)
  | [], _ => List.pairwise_singleton _ _
  | y :: ys, h => by
    rw [insertSorted]
    rcases List.pairwise_cons.mp h with ⟨hy, hys⟩
    by_cases hxy : strLeb x y = true
    · rw [if_pos hxy]
      refine List.pairwise_cons.mpr ⟨?_, h⟩
      intro b hb
      rcases List.mem_cons.mp hb with rfl | hb'
      · exact hxy
      · exact charsLe_trans x.data y.data b.data hxy (hy b hb')
    · rw [if_neg hxy]
      have hyx : strLeb y x = true := by
        rcases charsLe_total x.data y.data with hc | hc
        · exact absurd hc hxy
        · exact hc
      refine List.pairwise_cons.mpr ⟨?_, sorted_insertSorted x ys hys⟩
      intro b hb
      rcases List.mem_cons.mp ((insertSorted_perm x ys).mem_iff.mp hb) with rfl | hb'
      · exact hyx
      · exact hy b hb'

theorem sortStrings_sorted :
    ∀ l, List.Pairwise (fun a b => strLeb a b = true) (sortStrings l)
  | [] => .nil
  | x :: xs => sorted_insertSorted x _ (sortStrings_sorted xs)

theorem checkModificationRules_sorted (isDir : String → Bool)
    (mustModify noModify changesRaw : List String) :
    List.Pairwise (fun a b => strLeb a b = true)
      (checkModificationRules isDir mustModify noModify changesRaw) := by
  simp only [checkModificationRules]
  split_ifs <;>
    first
      | exact .nil
      | exact List.pairwise_singleton _ _
      | exact sortStrings_sorted _

theorem jCount_le (acc : Nat × Nat) (l : JLine) (h : acc.1 ≤ acc.2) :
    (jCount acc l).1 ≤ (jCount acc l).2 := by
  cases l with
  | invalid => exact h
  | event a t =>
    simp only [jCount]
    split_ifs <;>
      first
        | exact h
        | exact Nat.succ_le_succ h
        | exact Nat.le_succ_of_le h

theorem counts_foldl_le : ∀ (lines : List JLine) (acc : Nat × Nat), acc.1 ≤ acc.2 →
    (lines.foldl jCount acc).1 ≤ (lines.foldl jCount acc).2
  | [], _, h => h
  | l :: ls, acc, h => counts_foldl_le ls (jCount acc l) (jCount_le acc l h)

theorem parseJSONCounts_le (lines : List JLine) :
    (parseJSONCounts lines).1 ≤ (parseJSONCounts lines).2 :=
  counts_foldl_le lines (0, 0) (le_refl 0)

theorem partialCount_le (env : VerifyEnv) (entries : List String) :
    partialPassedCount env entries ≤ partialTotalCount env entries := by
  rw [partialPassedCount, partialTotalCount]
  induction entries with
  | nil => simp
  | cons e es ih =>
    simp only [List.map_cons, List.sum_cons]
    exact Nat.add_le_add (parseJSONCounts_le _) ih

theorem mem_filterIgnoredChanges {x : String} {changes : List String} :
    x ∈ filterIgnoredChanges changes ↔
      ∃ p ∈ changes, cleanPath p = x ∧ verifyIgnoredFiles.contains x = false := by
  simp only [filterIgnoredChanges, List.mem_filterMap]
  constructor
  · rintro ⟨p, hp, hf⟩
    rcases Bool.eq_false_or_eq_true (verifyIgnoredFiles.contains (cleanPath p)) with hc | hc
    · rw [if_pos hc] at hf
      exact absurd hf (by simp)
    · rw [if_neg (show ¬ _ = true by rw [hc]; decide)] at hf
      injection hf with hx
      exact ⟨p, hp, hx, hx ▸ hc⟩
  · rintro ⟨p, hp, hx, hc⟩
    refine ⟨p, hp, ?_⟩
    rw [hx, if_neg (show ¬ _ = true by rw [hc]; decide)]

/-- C3 (corrected): whenever the modification-rule check yields at least one
violation, verification short-circuits: no test targets are run, no
hidden-file copies are applied, and the report has `Success = false` and
exactly one synthetic failing test result whose error text is all violation
messages newline-joined in lexicographically sorted order.  In the
spec's scenario — no-modify rule `"secret.txt"` with `secret.txt` changed —
the error text is `"secret.txt is blocked by verify.no-modify"`; it
contains the substring `"secret.txt is blocked by verify.no-modify"` (the
originally claimed substring `"secret.txt is blocked by no-modify"` does
not occur, see the counterexample). -/
theorem verify_gate_short_circuits :
    (∀ cfg env,
      checkModificationRules env.isDir cfg.mustModify cfg.noModify env.changes ≠ [] →
      (runVerify cfg env).testsRun = false ∧
      (runVerify cfg env).copiesApplied = false ∧
      (runVerify cfg env).report.success = false ∧
      (runVerify cfg env).report.tests =
        [⟨"verify.modification-rules", false, "",
          goJoin "\n" (checkModificationRules env.isDir cfg.mustModify cfg.noModify
            env.changes)⟩] ∧
      List.Pairwise (fun a b => strLeb a b = true)
        (checkModificationRules env.isDir cfg.mustModify cfg.noModify env.changes)) ∧
    (runVerify exCfgSecret exEnvSecret).report.tests =
      [⟨"verify.modification-rules", false, "",
        "secret.txt is blocked by verify.no-modify"⟩] ∧
    containsSub "secret.txt is blocked by verify.no-modify"
      "secret.txt is blocked by verify.no-modify" = true := by
  refine ⟨?_, by decide, by decide⟩
  intro cfg env h
  simp only [runVerify]
  rw [if_neg h]
  exact ⟨rfl, rfl, rfl, rfl, checkModificationRules_sorted _ _ _ _⟩

/-- C3 counterexample: in the claimed scenario the synthetic failing test's
error text is `"secret.txt is blocked by verify.no-modify"` (the message
format of `checkModificationRules` spells out `verify.no-modify`), and the
substring claimed by the spec, `"secret.txt is blocked by no-modify"`, does
not occur in it. -/
theorem verify_gate_message_counterexample :
    (runVerify exCfgSecret exEnvSecret).report.tests =
      [⟨"verify.modification-rules", false, "",
        "secret.txt is blocked by verify.no-modify"⟩] ∧
    containsSub "secret.txt is blocked by verify.no-modify"
      "secret.txt is blocked by no-modify" = false :=
  ⟨by decide, by decide⟩

theorem verify_gate_short_circuits_witness :
    checkModificationRules exEnvSecret.isDir exCfgSecret.mustModify
      exCfgSecret.noModify exEnvSecret.changes ≠ [] ∧
    ((runVerify exCfgSecret exEnvSecret).testsRun = false ∧
      (runVerify exCfgSecret exEnvSecret).copiesApplied = false ∧
      (runVerify exCfgSecret exEnvSecret).report.success = false ∧
      (runVerify exCfgSecret exEnvSecret).report.tests =
        [⟨"verify.modification-rules", false, "",
          goJoin "\n" (checkModificationRules exEnvSecret.isDir exCfgSecret.mustModify
            exCfgSecret.noModify exEnvSecret.changes)⟩] ∧
      List.Pairwise (fun a b => strLeb a b = true)
        (checkModificationRules exEnvSecret.isDir exCfgSecret.mustModify
          exCfgSecret.noModify exEnvSecret.changes)) :=
  ⟨by decide, verify_gate_short_circuits.1 exCfgSecret exEnvSecret (by decide)⟩

/-- C4 (corrected): a rule without glob metacharacters that looks like a
directory rule (trailing separator, or the cleaned rule names an existing
workspace directory) matches a candidate path iff the candidate's parent
directory equals the cleaned rule path — OR the cleaned candidate itself
equals the cleaned rule path, since the exact-path comparison is checked
before the directory-scope comparison (see the counterexample).  The
non-recursive consequences claimed by the spec do hold: a rule naming
directory `d` matches `d/x.txt` but not `d/sub/y.txt`. -/
theorem dir_scope_rule_matches :
    (∀ (isDir : String → Bool) (path rule : String),
      trimSpace rule ≠ "" → containsGlobMeta rule = false →
      looksLikeDirRule isDir rule = true →
      (pathMatchesRule isDir path rule = true ↔
        (cleanPath path = cleanPath rule ∨ dirPath (cleanPath path) = cleanPath rule))) ∧
    pathMatchesRule (fun s => s == "d") "d/x.txt" "d" = true ∧
    pathMatchesRule (fun s => s == "d") "d/sub/y.txt" "d" = false := by
  refine ⟨?_, by decide, by decide⟩
  intro isDir path rule h1 h2 h3
  simp only [pathMatchesRule, if_neg h1, h2, Bool.false_eq_true, if_false, h3, if_true]
  by_cases hcp : cleanPath path = cleanPath rule
  · simp [hcp]
  · simp [hcp]

/-- C4 counterexample: the matcher compares the cleaned candidate with the
cleaned rule for exact equality before the directory-scope comparison, so
for the directory-scope rule `"d/"` (trailing separator) the candidate
`"d"` matches even though its parent directory `"."` differs from the
cleaned rule `"d"` — the claimed "iff the parent equals the cleaned rule"
fails in this direction. -/
theorem dir_scope_rule_counterexample :
    looksLikeDirRule (fun _ => false) "d/" = true ∧
    pathMatchesRule (fun _ => false) "d" "d/" = true ∧
    dirPath (cleanPath "d") ≠ cleanPath "d/" :=
  ⟨by decide, by decide, by decide⟩

theorem dir_scope_rule_matches_witness :
    trimSpace "d" ≠ "" ∧ containsGlobMeta "d" = false ∧
    looksLikeDirRule (fun s => s == "d") "d" = true ∧
    (pathMatchesRule (fun s => s == "d") "d/x.txt" "d" = true ↔
      (cleanPath "d/x.txt" = cleanPath "d" ∨
        dirPath (cleanPath "d/x.txt") = cleanPath "d")) :=
  ⟨by decide, by decide, by decide,
    dir_scope_rule_matches.1 (fun s => s == "d") "d/x.txt" "d"
      (by decide) (by decide) (by decide)⟩

/-- C5: with at least one configured partial target the partial score is
always present, lies in `[0,1]`, equals (sum of passed events)/(sum of
pass+fail events) when that total is positive and is exactly 0 when the
total is 0; only `pass`/`fail` events with a nonempty test name are counted
(by definition of `parseJSONCounts`, over which the totals are summed). -/
theorem partial_score_exact (env : VerifyEnv) (entries : List String)
    (h : entries ≠ []) :
    ∃ s : ℚ, (runPartial env entries).2 = some s ∧ 0 ≤ s ∧ s ≤ 1 ∧
      (0 < partialTotalCount env entries →
        s = (partialPassedCount env entries : ℚ) / (partialTotalCount env entries : ℚ)) ∧
      (partialTotalCount env entries = 0 → s = 0) := by
  have hr : (runPartial env entries).2 =
      some (if 0 < partialTotalCount env entries
        then (partialPassedCount env entries : ℚ) / (partialTotalCount env entries : ℚ)
        else 0) := by
    simp only [runPartial, if_neg h]
  refine ⟨_, hr, ?_, ?_, ?_, ?_⟩
  · by_cases htt : 0 < partialTotalCount env entries
    · rw [if_pos htt]; positivity
    · rw [if_neg htt]
  · by_cases htt : 0 < partialTotalCount env entries
    · rw [if_pos htt]
      rw [div_le_one (by exact_mod_cast htt)]
      exact_mod_cast partialCount_le env entries
    · rw [if_neg htt]; norm_num
  · intro htt; rw [if_pos htt]
  · intro h0; rw [if_neg (by omega)]

theorem partial_score_exact_witness :
    (["./..."] : List String) ≠ [] ∧
    ∃ s : ℚ, (runPartial exEnvPartial ["./..."]).2 = some s ∧ 0 ≤ s ∧ s ≤ 1 ∧
      (0 < partialTotalCount exEnvPartial ["./..."] →
        s = (partialPassedCount exEnvPartial ["./..."] : ℚ) /
          (partialTotalCount exEnvPartial ["./..."] : ℚ)) ∧
      (partialTotalCount exEnvPartial ["./..."] = 0 → s = 0) :=
  ⟨by decide, partial_score_exact exEnvPartial ["./..."] (by decide)⟩

/-- C6: when verification reaches the test-running stage (no modification
violations), overall success is true iff every required target passed and
the partial score is absent or exactly 1; in the spec's scenario — 3
passing and 7 failing structured partial events — the score is `3/10` and
success is `false` even though all required targets passed. -/
theorem verify_success_iff :
    (∀ cfg env,
      checkModificationRules env.isDir cfg.mustModify cfg.noModify env.changes = [] →
      ((runVerify cfg env).report.success = true ↔
        (allPassed (runTestList env cfg.tests) = true ∧
          ((runPartial env cfg.partialTests).2 = none ∨
           (runPartial env cfg.partialTests).2 = some 1)))) ∧
    (runPartial exEnvPartial ["./..."]).2 = some (3/10 : ℚ) ∧
    allPassed (runTestList exEnvPartial exCfgPartial.tests) = true ∧
    (runVerify exCfgPartial exEnvPartial).report.success = false := by
  have hp3 : partialPassedCount exEnvPartial ["./..."] = 3 := by decide
  have ht10 : partialTotalCount exEnvPartial ["./..."] = 10 := by decide
  have hscore : (runPartial exEnvPartial ["./..."]).2 = some (3/10 : ℚ) := by
    simp only [runPartial, if_neg (show (["./..."] : List String) ≠ [] by decide),
      hp3, ht10]
    norm_num
  refine ⟨?_, hscore, by decide, ?_⟩
  · intro cfg env hok
    simp only [runVerify]
    rw [if_pos hok]
    cases hp : (runPartial env cfg.partialTests).2 with
    | none => simp [hp]
    | some s => simp [hp, Bool.and_eq_true, beq_iff_eq]
  · have hne : ((3 : ℚ)/10 == 1) = false := by
      rw [beq_eq_false_iff_ne]
      norm_num
    simp only [runVerify]
    rw [if_pos (by decide)]
    show (allPassed (runTestList exEnvPartial exCfgPartial.tests) &&
      (match (runPartial exEnvPartial exCfgPartial.partialTests).2 with
        | none => true
        | some s => s == 1)) = false
    have : exCfgPartial.partialTests = ["./..."] := rfl
    rw [this, hscore]
    simp only [hne, Bool.and_false]

theorem verify_success_iff_witness :
    checkModificationRules exEnvPartial.isDir exCfgPartial.mustModify
      exCfgPartial.noModify exEnvPartial.changes = [] ∧
    ((runVerify exCfgPartial exEnvPartial).report.success = true ↔
      (allPassed (runTestList exEnvPartial exCfgPartial.tests) = true ∧
        ((runPartial exEnvPartial exCfgPartial.partialTests).2 = none ∨
         (runPartial exEnvPartial exCfgPartial.partialTests).2 = some 1))) :=
  ⟨by decide, verify_success_iff.1 exCfgPartial exEnvPartial (by decide)⟩

/-- C9: a rule that is empty or all-whitespace matches nothing —
`pathMatchesRule` returns `false` for every candidate — so such entries in
`no-modify` never block a change, and such an entry in `must-modify` always
yields a not-modified violation whenever the filtered change set is
nonempty. -/
theorem empty_rule_matches_nothing :
    (∀ (isDir : String → Bool) (path rule : String), trimSpace rule = "" →
      pathMatchesRule isDir path rule = false) ∧
    (∀ (isDir : String → Bool) (mustModify noModify changes : List String) (rule : String),
      trimSpace rule = "" → rule ∈ mustModify → filterIgnoredChanges changes ≠ [] →
      notModifiedMsg rule ∈ checkModificationRules isDir mustModify noModify changes) := by
  have hfalse : ∀ (isDir : String → Bool) (path rule : String), trimSpace rule = "" →
      pathMatchesRule isDir path rule = false := by
    intro isDir path rule h
    rw [pathMatchesRule, if_pos h]
  refine ⟨hfalse, ?_⟩
  intro isDir mustModify noModify changes rule h hmem hne
  have hmm : mustModify ≠ [] := by
    intro hc
    rw [hc] at hmem
    exact absurd hmem (List.not_mem_nil rule)
  have hany : anyChangeMatchesRule isDir (filterIgnoredChanges changes) rule = false := by
    rw [anyChangeMatchesRule, List.any_eq_false]
    intro p hp
    simp [hfalse isDir p rule h]
  have hmemN : notModifiedMsg rule ∈
      ((mustModify.filter (fun r =>
        !anyChangeMatchesRule isDir (filterIgnoredChanges changes) r)).map notModifiedMsg) :=
    List.mem_map_of_mem _ (List.mem_filter.mpr ⟨hmem, by rw [hany]; rfl⟩)
  simp only [checkModificationRules]
  rw [if_neg hne, if_neg hmm]
  have hprob : notModifiedMsg rule ∈
      (((filterIgnoredChanges changes).filter
          (fun p => matchesPathRule isDir p noModify)).map blockedMsg ++
        (mustModify.filter (fun r =>
          !anyChangeMatchesRule isDir (filterIgnoredChanges changes) r)).map notModifiedMsg) :=
    List.mem_append_right _ hmemN
  rw [if_neg (by
    intro hc
    rw [hc] at hprob
    exact absurd hprob (List.not_mem_nil _))]
  exact mem_sortStrings.mpr hprob

theorem empty_rule_matches_nothing_witness :
    pathMatchesRule (fun _ => false) "x" "" = false ∧
    trimSpace "  " = "" ∧ ("  " : String) ∈ (["  "] : List String) ∧
    filterIgnoredChanges ["a.txt"] ≠ [] ∧
    notModifiedMsg "  " ∈ checkModificationRules (fun _ => false) ["  "] [] ["a.txt"] :=
  ⟨empty_rule_matches_nothing.1 (fun _ => false) "x" "" (by decide),
    by decide, by decide, by decide,
    empty_rule_matches_nothing.2 (fun _ => false) ["  "] [] ["a.txt"] "  "
      (by decide) (by decide) (by decide)⟩

/-- C10: the bookkeeping filter removes exactly the workspace-root paths
`.run-start.json` and `.run-progress.json`: neither ever survives the
filter, every other change survives (cleaned), and a surviving change is
evaluated against the rules like any other (here: it produces a blocked
violation when it matches a no-modify rule); in particular
`sub/.run-start.json` is not filtered. -/
theorem ignored_filter_exact :
    (∀ changes : List String,
      ".run-start.json" ∉ filterIgnoredChanges changes ∧
      ".run-progress.json" ∉ filterIgnoredChanges changes) ∧
    (∀ (changes : List String) (p : String), p ∈ changes →
      verifyIgnoredFiles.contains (cleanPath p) = false →
      cleanPath p ∈ filterIgnoredChanges changes) ∧
    (∀ (isDir : String → Bool) (mustModify noModify changes : List String) (p : String),
      p ∈ changes → cleanPath p = p →
      verifyIgnoredFiles.contains p = false →
      matchesPathRule isDir p noModify = true →
      blockedMsg p ∈ checkModificationRules isDir mustModify noModify changes) ∧
    filterIgnoredChanges ["sub/.run-start.json"] = ["sub/.run-start.json"] := by
  refine ⟨?_, ?_, ?_, by decide⟩
  · intro changes
    constructor
    · intro hmem
      rcases mem_filterIgnoredChanges.mp hmem with ⟨p, _, _, hc⟩
      exact absurd hc (by decide)
    · intro hmem
      rcases mem_filterIgnoredChanges.mp hmem with ⟨p, _, _, hc⟩
      exact absurd hc (by decide)
  · intro changes p hp hc
    exact mem_filterIgnoredChanges.mpr ⟨p, hp, rfl, hc⟩
  · intro isDir mustModify noModify changes p hp hclean hc hmatch
    have hpmem : p ∈ filterIgnoredChanges changes :=
      mem_filterIgnoredChanges.mpr ⟨p, hp, hclean, hc⟩
    have hne : filterIgnoredChanges changes ≠ [] := by
      intro hnil
      rw [hnil] at hpmem
      exact absurd hpmem (List.not_mem_nil _)
    have hmemB : blockedMsg p ∈
        (((filterIgnoredChanges changes).filter
          (fun q => matchesPathRule isDir q noModify)).map blockedMsg) :=
      List.mem_map_of_mem _ (List.mem_filter.mpr ⟨hpmem, hmatch⟩)
    simp only [checkModificationRules]
    rw [if_neg hne]
    have hprob : blockedMsg p ∈
        (((filterIgnoredChanges changes).filter
            (fun q => matchesPathRule isDir q noModify)).map blockedMsg ++
          (if mustModify = [] then []
           else (mustModify.filter (fun rule =>
             !anyChangeMatchesRule isDir (filterIgnoredChanges changes) rule)).map
               notModifiedMsg)) :=
      List.mem_append_left _ hmemB
    rw [if_neg (by
      intro hc'
      rw [hc'] at hprob
      exact absurd hprob (List.not_mem_nil _))]
    exact mem_sortStrings.mpr hprob

theorem ignored_filter_exact_witness :
    ("x.txt" : String) ∈ (["x.txt"] : List String) ∧ cleanPath "x.txt" = "x.txt" ∧
    verifyIgnoredFiles.contains "x.txt" = false ∧
    matchesPathRule (fun _ => false) "x.txt" ["x.txt"] = true ∧
    blockedMsg "x.txt" ∈ checkModificationRules (fun _ => false) [] ["x.txt"] ["x.txt"] :=
  ⟨by decide, by decide, by decide, by decide,
    ignored_filter_exact.2.2.1 (fun _ => false) [] ["x.txt"] ["x.txt"] "x.txt"
      (by decide) (by decide) (by decide) (by decide)⟩

end GoAgentBench
